import Mathlib

/-!
Verification of the BitCaskPlus storage engine (grcm10/bitcaskplus).

The development shallowly embeds the CRC-checked storage-engine variant of the
repository: the record codec and write path of `src/db_write/writer.rs`, the
read path and recovery scanner of `src/db_read/reader.rs`, and the compactor of
`src/db_read/compaction.rs`.  Files are byte lists (`List Nat`, each byte `< 256`),
machine integers are `Nat` with explicit wrap-around (`% 2^32`, `% 2^64`) where
the source uses `u32`/`u64`, and fallible operations return `Except`/`Option`
or a `Store × Option Err` pair mirroring Rust's `&mut self` + `Result`.
Definitions whose backing code is not part of the four source files (the async
store struct's glue such as `DataReader::read_data` or `new_log_file`) are
modelled from the specification and marked `Modelled from the spec:` in their
doc comments.
-/

set_option maxRecDepth 8192
set_option maxHeartbeats 1000000

namespace BitCask

/-! ## Byte-level helpers -/

/-- The contiguous byte extent `[pos, pos+n)` of a file, as read by a positional
read of `n` bytes at offset `pos`. -/
def slice (l : List Nat) (pos n : Nat) : List Nat := (l.drop pos).take n

/-- `u32::to_le_bytes`: the four little-endian bytes of a 32-bit value. -/
def u32le (n : Nat) : List Nat :=
  [n % 256, n / 256 % 256, n / 256 ^ 2 % 256, n / 256 ^ 3 % 256]

/-- `u64::to_le_bytes`: the eight little-endian bytes of a 64-bit value. -/
def u64le (n : Nat) : List Nat :=
  [n % 256, n / 256 % 256, n / 256 ^ 2 % 256, n / 256 ^ 3 % 256,
   n / 256 ^ 4 % 256, n / 256 ^ 5 % 256, n / 256 ^ 6 % 256, n / 256 ^ 7 % 256]

/-- `from_le_bytes`: recombine little-endian bytes into a value. -/
def leNat (bs : List Nat) : Nat := bs.foldr (fun b acc => b + 256 * acc) 0

theorem leNat_u32le {n : Nat} (h : n < 2 ^ 32) : leNat (u32le n) = n := by
  simp only [leNat, u32le, List.foldr]
  omega

theorem leNat_u64le {n : Nat} (h : n < 2 ^ 64) : leNat (u64le n) = n := by
  simp only [leNat, u64le, List.foldr]
  omega

theorem u32le_length (n : Nat) : (u32le n).length = 4 := rfl

theorem u64le_length (n : Nat) : (u64le n).length = 8 := rfl

theorem u32le_bytes_lt (n : Nat) : ∀ b ∈ u32le n, b < 256 := by
  simp only [u32le, List.mem_cons, List.not_mem_nil, or_false]
  rintro b (rfl | rfl | rfl | rfl) <;> omega

theorem u64le_bytes_lt (n : Nat) : ∀ b ∈ u64le n, b < 256 := by
  simp only [u64le, List.mem_cons, List.not_mem_nil, or_false]
  rintro b (rfl | rfl | rfl | rfl | rfl | rfl | rfl | rfl) <;> omega

/-! ## CRC-32 (IEEE), as computed by `crc32fast::hash`

`crc32fast::hash` computes the standard reflected CRC-32 with polynomial
`0xEDB88320`, initial value `0xFFFFFFFF` and final XOR `0xFFFFFFFF`.  The crate
is external to the repository; it is embedded here by the standard bitwise
definition of that CRC. -/

def crcPoly : Nat := 0xEDB88320

/-- One bit-step of the reflected CRC-32 shift register. -/
def crcStep1 (c : Nat) : Nat := (c >>> 1) ^^^ (if c % 2 = 1 then crcPoly else 0)

/-- The CRC-32 table entry for input `b`: eight bit-steps. -/
def crcTable (b : Nat) : Nat := crcStep1^[8] b

/-- Process one message byte. -/
def crcUpdate (c b : Nat) : Nat := (c >>> 8) ^^^ crcTable ((c ^^^ b) % 256)

/-- CRC-32 (IEEE) of a byte sequence, as `crc32fast::hash` computes it. -/
def crc32 (data : List Nat) : Nat :=
  (data.foldl crcUpdate 0xFFFFFFFF) ^^^ 0xFFFFFFFF

theorem xor_shiftRight (a b n : Nat) : (a ^^^ b) >>> n = (a >>> n) ^^^ (b >>> n) := by
  apply Nat.eq_of_testBit_eq
  intro i
  simp [Nat.testBit_shiftRight, Nat.testBit_xor]

theorem xor_mod_two_pow (a b n : Nat) :
    (a ^^^ b) % 2 ^ n = (a % 2 ^ n) ^^^ (b % 2 ^ n) := by
  apply Nat.eq_of_testBit_eq
  intro i
  simp only [Nat.testBit_mod_two_pow, Nat.testBit_xor]
  by_cases h : i < n <;> simp [h]

theorem xor_mod256 (a b : Nat) : (a ^^^ b) % 256 = (a % 256) ^^^ (b % 256) := by
  have h : (256 : Nat) = 2 ^ 8 := by norm_num
  rw [h]
  exact xor_mod_two_pow a b 8

/-- The CRC bit-step is GF(2)-linear. -/
theorem crcStep1_linear (a b : Nat) :
    crcStep1 (a ^^^ b) = crcStep1 a ^^^ crcStep1 b := by
  unfold crcStep1
  have hm : (a ^^^ b) % 2 = (a % 2) ^^^ (b % 2) := by
    have h : (2 : Nat) = 2 ^ 1 := by norm_num
    rw [h]
    exact xor_mod_two_pow a b 1
  rw [xor_shiftRight, hm]
  rcases Nat.mod_two_eq_zero_or_one a with ha | ha <;>
    rcases Nat.mod_two_eq_zero_or_one b with hb | hb <;>
      simp only [ha, hb] <;> norm_num <;>
        · apply Nat.eq_of_testBit_eq
          intro i
          simp [Nat.testBit_xor, Bool.xor_assoc, Bool.xor_comm, Bool.xor_left_comm]

theorem crcStep1_zero : crcStep1 0 = 0 := by decide

theorem crcStep1_iterate_linear (n a b : Nat) :
    crcStep1^[n] (a ^^^ b) = crcStep1^[n] a ^^^ crcStep1^[n] b := by
  induction n generalizing a b with
  | zero => simp
  | succ n ih =>
    rw [Function.iterate_succ_apply, Function.iterate_succ_apply,
      Function.iterate_succ_apply, crcStep1_linear, ih]

/-- The CRC table lookup is GF(2)-linear. -/
theorem crcTable_linear (a b : Nat) :
    crcTable (a ^^^ b) = crcTable a ^^^ crcTable b :=
  crcStep1_iterate_linear 8 a b

theorem crcTable_zero : crcTable 0 = 0 := by decide

/-- How the difference of two CRC states evolves when both process the same
byte: the data byte cancels and only the state difference is transformed. -/
def crcStepZ (d : Nat) : Nat := (d >>> 8) ^^^ crcTable (d % 256)

theorem crcUpdate_diff (c c' b : Nat) :
    crcUpdate c b ^^^ crcUpdate c' b = crcStepZ (c ^^^ c') := by
  unfold crcUpdate crcStepZ
  have harg : ((c ^^^ b) % 256) ^^^ ((c' ^^^ b) % 256) = (c ^^^ c') % 256 := by
    rw [← xor_mod256]
    congr 1
    apply Nat.eq_of_testBit_eq
    intro i
    simp [Nat.testBit_xor, Bool.xor_assoc, Bool.xor_comm, Bool.xor_left_comm]
  rw [xor_shiftRight, ← harg, crcTable_linear]
  apply Nat.eq_of_testBit_eq
  intro i
  simp [Nat.testBit_xor, Bool.xor_assoc, Bool.xor_comm, Bool.xor_left_comm]

theorem crcUpdate_flip (c b b' : Nat) (hb : b < 256) (hb' : b' < 256) :
    crcUpdate c b ^^^ crcUpdate c b' = crcTable (b ^^^ b') := by
  unfold crcUpdate
  have hlt : b ^^^ b' < 256 := by
    have h8 : (256 : Nat) = 2 ^ 8 := by norm_num
    rw [h8] at hb hb' ⊢
    exact Nat.xor_lt_two_pow hb hb'
  have harg : ((c ^^^ b) % 256) ^^^ ((c ^^^ b') % 256) = b ^^^ b' := by
    rw [← xor_mod256]
    have : (c ^^^ b) ^^^ (c ^^^ b') = b ^^^ b' := by
      apply Nat.eq_of_testBit_eq
      intro i
      simp [Nat.testBit_xor, Bool.xor_assoc, Bool.xor_comm, Bool.xor_left_comm]
    rw [this, Nat.mod_eq_of_lt hlt]
  rw [← harg, crcTable_linear]
  apply Nat.eq_of_testBit_eq
  intro i
  simp [Nat.testBit_xor, Bool.xor_assoc, Bool.xor_comm, Bool.xor_left_comm]

theorem foldl_crcUpdate_diff (bs : List Nat) (c c' : Nat) :
    (bs.foldl crcUpdate c) ^^^ (bs.foldl crcUpdate c') =
      crcStepZ^[bs.length] (c ^^^ c') := by
  induction bs generalizing c c' with
  | nil => simp
  | cons x xs ih =>
    simp only [List.foldl_cons, List.length_cons, Function.iterate_succ_apply]
    rw [ih, crcUpdate_diff]

theorem crcStep1_lt {c : Nat} (h : c < 2 ^ 32) : crcStep1 c < 2 ^ 32 := by
  unfold crcStep1
  apply Nat.xor_lt_two_pow
  · calc c >>> 1 ≤ c := by
          rw [Nat.shiftRight_eq_div_pow]
          exact Nat.div_le_self c (2 ^ 1)
      _ < 2 ^ 32 := h
  · split <;> norm_num [crcPoly]

theorem crcTable_lt {b : Nat} (h : b < 2 ^ 32) : crcTable b < 2 ^ 32 := by
  unfold crcTable
  have : ∀ n c, c < 2 ^ 32 → crcStep1^[n] c < 2 ^ 32 := by
    intro n
    induction n with
    | zero => intro c hc; simpa using hc
    | succ n ih =>
      intro c hc
      rw [Function.iterate_succ_apply]
      exact ih _ (crcStep1_lt hc)
  exact this 8 b h

set_option maxRecDepth 100000 in
/-- The top byte of a nonzero CRC table entry is nonzero: this makes the
one-zero-byte difference step `crcStepZ` injective on 32-bit states. -/
theorem crcTable_top_ne_zero : ∀ x : Fin 256, x.val ≠ 0 → crcTable x.val >>> 24 ≠ 0 := by
  decide

theorem crcTable_ne_zero {x : Nat} (hx : x < 256) (hne : x ≠ 0) : crcTable x ≠ 0 := by
  intro h0
  have htop := crcTable_top_ne_zero ⟨x, hx⟩ hne
  rw [h0] at htop
  exact htop rfl

theorem crcStepZ_ne_zero {d : Nat} (hd : d < 2 ^ 32) (hne : d ≠ 0) : crcStepZ d ≠ 0 := by
  intro h0
  unfold crcStepZ at h0
  have heq : d >>> 8 = crcTable (d % 256) := Nat.xor_eq_zero.mp h0
  have htop : (d >>> 8) >>> 24 = 0 := by
    rw [Nat.shiftRight_eq_div_pow, Nat.shiftRight_eq_div_pow, Nat.div_div_eq_div_mul]
    have : (2 : Nat) ^ 8 * 2 ^ 24 = 2 ^ 32 := by norm_num
    rw [this]
    exact Nat.div_eq_of_lt hd
  have hmod : d % 256 = 0 := by
    by_contra hmz
    exact crcTable_top_ne_zero ⟨d % 256, Nat.mod_lt _ (by norm_num)⟩ hmz
      (by rw [← heq]; exact htop)
  rw [hmod, crcTable_zero] at heq
  rw [Nat.shiftRight_eq_div_pow] at heq
  have : d = 0 := by omega
  exact hne this

theorem crcStepZ_lt {d : Nat} (hd : d < 2 ^ 32) : crcStepZ d < 2 ^ 32 := by
  unfold crcStepZ
  apply Nat.xor_lt_two_pow
  · calc d >>> 8 ≤ d := by
          rw [Nat.shiftRight_eq_div_pow]
          exact Nat.div_le_self d (2 ^ 8)
      _ < 2 ^ 32 := hd
  · exact crcTable_lt (lt_trans (Nat.mod_lt _ (by norm_num)) (by norm_num))

theorem crcStepZ_iterate_ne_zero (n : Nat) {d : Nat} (hd : d < 2 ^ 32) (hne : d ≠ 0) :
    crcStepZ^[n] d ≠ 0 := by
  induction n generalizing d with
  | zero => simpa using hne
  | succ n ih =>
    rw [Function.iterate_succ_apply]
    exact ih (crcStepZ_lt hd) (crcStepZ_ne_zero hd hne)

/-- Changing a single byte of a message always changes its CRC-32. -/
theorem crc32_flip_ne (pre suf : List Nat) (x b : Nat)
    (hx : x < 256) (hb : b < 256) (hne : b ≠ x) :
    crc32 (pre ++ b :: suf) ≠ crc32 (pre ++ x :: suf) := by
  unfold crc32
  intro h
  have h2 : (pre ++ b :: suf).foldl crcUpdate 0xFFFFFFFF =
      (pre ++ x :: suf).foldl crcUpdate 0xFFFFFFFF := by
    have h3 := congrArg (fun t => t ^^^ 0xFFFFFFFF) h
    simpa [Nat.xor_cancel_right] using h3
  rw [List.foldl_append, List.foldl_append, List.foldl_cons, List.foldl_cons] at h2
  set c := pre.foldl crcUpdate 0xFFFFFFFF with hc
  have hdiff := foldl_crcUpdate_diff suf (crcUpdate c b) (crcUpdate c x)
  rw [h2, Nat.xor_self] at hdiff
  rw [crcUpdate_flip c b x hb hx] at hdiff
  have hnz : b ^^^ x ≠ 0 := fun hz => hne (Nat.xor_eq_zero.mp hz)
  have hlt : b ^^^ x < 256 := by
    have h8 : (256 : Nat) = 2 ^ 8 := by norm_num
    rw [h8] at hb hx ⊢
    exact Nat.xor_lt_two_pow hb hx
  exact crcStepZ_iterate_ne_zero suf.length
    (crcTable_lt (lt_trans hlt (by norm_num)))
    (crcTable_ne_zero hlt hnz) hdiff.symm

/-- `List.set` version of single-byte corruption detection. -/
theorem crc32_set_ne (l : List Nat) (i b : Nat) (hi : i < l.length)
    (hbytes : ∀ y ∈ l, y < 256) (hb : b < 256) (hne : b ≠ l[i]) :
    crc32 (l.set i b) ≠ crc32 l := by
  have hdecomp : l = l.take i ++ l[i] :: l.drop (i + 1) := by
    conv_lhs => rw [← List.take_append_drop i l]
    rw [List.drop_eq_getElem_cons hi]
  have hset : l.set i b = l.take i ++ b :: l.drop (i + 1) := by
    rw [List.set_eq_take_append_cons_drop, if_pos hi]
  rw [hset]
  conv_rhs => rw [hdecomp]
  exact crc32_flip_ne (l.take i) (l.drop (i + 1)) l[i] b
    (hbytes _ (List.getElem_mem hi)) hb hne

/-! ## UTF-8

Rust `String`s are UTF-8; `as_bytes` yields the UTF-8 encoding and
`serde_json::from_slice` decodes UTF-8.  The decoder below is permissive
(it accepts overlong forms); it is only used as a left inverse of the
encoder, which is standard UTF-8. -/

/-- Standard UTF-8 encoding of a scalar value (`str::as_bytes` per char). -/
def utf8EncodeNat (c : Nat) : List Nat :=
  if c < 0x80 then [c]
  else if c < 0x800 then [0xC0 + c / 64, 0x80 + c % 64]
  else if c < 0x10000 then [0xE0 + c / 4096, 0x80 + c / 64 % 64, 0x80 + c % 64]
  else [0xF0 + c / 262144, 0x80 + c / 4096 % 64, 0x80 + c / 64 % 64, 0x80 + c % 64]

/-- UTF-8 bytes of a string, as `String::as_bytes` produces them. -/
def strBytes (s : String) : List Nat :=
  s.data.flatMap (fun ch => utf8EncodeNat ch.toNat)

theorem char_toNat_lt (c : Char) : c.toNat < 0x110000 := by
  have h := c.valid
  rcases h with h | ⟨h1, h2⟩
  · exact lt_trans h (by norm_num)
  · exact h2

theorem utf8EncodeNat_bytes_lt {c : Nat} (h : c < 0x110000) :
    ∀ b ∈ utf8EncodeNat c, b < 256 := by
  unfold utf8EncodeNat
  split
  · intro b hb
    simp only [List.mem_singleton] at hb
    omega
  split
  · intro b hb
    simp only [List.mem_cons, List.not_mem_nil, or_false] at hb
    rcases hb with rfl | rfl <;> omega
  split
  · intro b hb
    simp only [List.mem_cons, List.not_mem_nil, or_false] at hb
    rcases hb with rfl | rfl | rfl <;> omega
  · intro b hb
    simp only [List.mem_cons, List.not_mem_nil, or_false] at hb
    rcases hb with rfl | rfl | rfl | rfl <;> omega

theorem strBytes_lt (s : String) : ∀ b ∈ strBytes s, b < 256 := by
  intro b hb
  unfold strBytes at hb
  rw [List.mem_flatMap] at hb
  obtain ⟨c, _, hbc⟩ := hb
  exact utf8EncodeNat_bytes_lt (char_toNat_lt c) b hbc

/-- Decode one UTF-8-encoded scalar value from a first byte `b` and the
following bytes; returns the value and the bytes after it. -/
def utf8DecodeOne (b : Nat) (rest : List Nat) : Option (Nat × List Nat) :=
  if b < 0x80 then some (b, rest)
  else if b < 0xC0 then none
  else if b < 0xE0 then
    match rest with
    | b1 :: rest1 =>
      if 0x80 ≤ b1 ∧ b1 < 0xC0 then some ((b - 0xC0) * 64 + (b1 - 0x80), rest1) else none
    | [] => none
  else if b < 0xF0 then
    match rest with
    | b1 :: b2 :: rest2 =>
      if (0x80 ≤ b1 ∧ b1 < 0xC0) ∧ (0x80 ≤ b2 ∧ b2 < 0xC0) then
        some ((b - 0xE0) * 4096 + (b1 - 0x80) * 64 + (b2 - 0x80), rest2)
      else none
    | _ => none
  else if b < 0xF8 then
    match rest with
    | b1 :: b2 :: b3 :: rest3 =>
      if (0x80 ≤ b1 ∧ b1 < 0xC0) ∧ (0x80 ≤ b2 ∧ b2 < 0xC0) ∧ (0x80 ≤ b3 ∧ b3 < 0xC0) then
        some ((b - 0xF0) * 262144 + (b1 - 0x80) * 4096 + (b2 - 0x80) * 64 + (b3 - 0x80), rest3)
      else none
    | _ => none
  else none

theorem utf8DecodeOne_length {b n : Nat} {rest tail : List Nat}
    (h : utf8DecodeOne b rest = some (n, tail)) : tail.length ≤ rest.length := by
  rcases rest with _ | ⟨b1, _ | ⟨b2, _ | ⟨b3, rest3⟩⟩⟩ <;>
      (unfold utf8DecodeOne at h; split_ifs at h <;> simp_all) <;>
    omega

/-- Fuel-indexed decoding loop; the fuel is an upper bound on the number of
scalar values, so `length bs` is always enough. -/
def utf8DecodeAux : Nat → List Nat → Option (List Char)
  | _, [] => some []
  | 0, _ :: _ => none
  | fuel + 1, b :: rest =>
    match utf8DecodeOne b rest with
    | some (n, tail) => (utf8DecodeAux fuel tail).map (fun cs => Char.ofNat n :: cs)
    | none => none

/-- Permissive UTF-8 decoder for a whole byte string, as `serde_json::from_slice`
decodes its input before parsing. -/
def utf8DecodeChars (bs : List Nat) : Option (List Char) := utf8DecodeAux bs.length bs

theorem utf8DecodeAux_fuel (f : Nat) : ∀ (g : Nat) (bs : List Nat),
    bs.length ≤ f → bs.length ≤ g → utf8DecodeAux f bs = utf8DecodeAux g bs := by
  induction f with
  | zero =>
    intro g bs hf hg
    cases bs with
    | nil => cases g <;> rfl
    | cons b rest => simp at hf
  | succ f ih =>
    intro g bs hf hg
    cases bs with
    | nil => cases g <;> rfl
    | cons b rest =>
      cases g with
      | zero => simp at hg
      | succ g =>
        simp only [utf8DecodeAux]
        cases hone : utf8DecodeOne b rest with
        | none => rfl
        | some p =>
          obtain ⟨n, tail⟩ := p
          have hlen := utf8DecodeOne_length hone
          simp only [List.length_cons] at hf hg
          exact congrArg (Option.map fun cs => Char.ofNat n :: cs)
            (ih g tail (by omega) (by omega))

theorem utf8DecodeOne_encode (c : Char) (rest : List Nat) :
    ∃ b tail, utf8EncodeNat c.toNat = b :: tail ∧
      utf8DecodeOne b (tail ++ rest) = some (c.toNat, rest) := by
  have hvalid := char_toNat_lt c
  unfold utf8EncodeNat
  split
  · next h1 =>
    exact ⟨c.toNat, [], rfl, by unfold utf8DecodeOne; rw [if_pos h1]; simp⟩
  split
  · next h1 h2 =>
    refine ⟨0xC0 + c.toNat / 64, [0x80 + c.toNat % 64], rfl, ?_⟩
    unfold utf8DecodeOne
    rw [if_neg (by omega), if_neg (by omega), if_pos (by omega)]
    simp only [List.cons_append, List.nil_append]
    rw [if_pos (by constructor <;> omega)]
    congr 2
    omega
  split
  · next h1 h2 h3 =>
    refine ⟨0xE0 + c.toNat / 4096, [0x80 + c.toNat / 64 % 64, 0x80 + c.toNat % 64], rfl, ?_⟩
    unfold utf8DecodeOne
    rw [if_neg (by omega), if_neg (by omega), if_neg (by omega), if_pos (by omega)]
    simp only [List.cons_append, List.nil_append]
    rw [if_pos (by refine ⟨⟨?_, ?_⟩, ?_, ?_⟩ <;> omega)]
    congr 2
    omega
  · next h1 h2 h3 =>
    refine ⟨0xF0 + c.toNat / 262144,
      [0x80 + c.toNat / 4096 % 64, 0x80 + c.toNat / 64 % 64, 0x80 + c.toNat % 64], rfl, ?_⟩
    unfold utf8DecodeOne
    rw [if_neg (by omega), if_neg (by omega), if_neg (by omega), if_neg (by omega),
      if_pos (by omega)]
    simp only [List.cons_append, List.nil_append]
    rw [if_pos (by refine ⟨⟨?_, ?_⟩, ⟨?_, ?_⟩, ?_, ?_⟩ <;> omega)]
    congr 2
    omega

theorem utf8DecodeChars_encode (c : Char) (rest : List Nat) :
    utf8DecodeChars (utf8EncodeNat c.toNat ++ rest) =
      (utf8DecodeChars rest).map (fun cs => c :: cs) := by
  obtain ⟨b, tail, henc, hone⟩ := utf8DecodeOne_encode c rest
  unfold utf8DecodeChars
  rw [henc, List.cons_append, List.length_cons]
  simp only [utf8DecodeAux]
  rw [hone]
  have hle : rest.length ≤ (tail ++ rest).length := by simp
  show Option.map (fun cs => Char.ofNat c.toNat :: cs) (utf8DecodeAux (tail ++ rest).length rest)
      = Option.map (fun cs => c :: cs) (utf8DecodeAux rest.length rest)
  rw [utf8DecodeAux_fuel _ rest.length rest hle (le_refl _), Char.ofNat_toNat]

theorem utf8DecodeChars_encodeList (cs : List Char) (rest : List Nat) :
    utf8DecodeChars (cs.flatMap (fun ch => utf8EncodeNat ch.toNat) ++ rest) =
      (utf8DecodeChars rest).map (fun tail => cs ++ tail) := by
  induction cs with
  | nil =>
    simp only [List.flatMap_nil, List.nil_append]
    cases utf8DecodeChars rest <;> rfl
  | cons c cs ih =>
    rw [List.flatMap_cons, List.append_assoc, utf8DecodeChars_encode, ih]
    cases utf8DecodeChars rest <;> rfl

/-- Decoding the UTF-8 bytes of a string gives back the string's characters. -/
theorem utf8DecodeChars_strBytes (s : String) :
    utf8DecodeChars (strBytes s) = some s.data := by
  have h := utf8DecodeChars_encodeList s.data []
  rw [List.append_nil] at h
  rw [strBytes, h]
  simp [utf8DecodeChars, utf8DecodeAux]

/-! ## JSON string escaping (`serde_json`)

`serde_json::to_string` escapes `"`, `\` and control characters (with the
short forms `\b \t \n \f \r` and `\u00xx` otherwise, lowercase hex); all
other characters pass through. -/

def hexDigitChar (n : Nat) : Char :=
  if n < 10 then Char.ofNat (48 + n) else Char.ofNat (87 + n)

def escapeChar (c : Char) : List Char :=
  if c = '"' then ['\\', '"']
  else if c = '\\' then ['\\', '\\']
  else if c.toNat < 0x20 then
    if c.toNat = 8 then ['\\', 'b']
    else if c.toNat = 9 then ['\\', 't']
    else if c.toNat = 10 then ['\\', 'n']
    else if c.toNat = 12 then ['\\', 'f']
    else if c.toNat = 13 then ['\\', 'r']
    else ['\\', 'u', '0', '0', hexDigitChar (c.toNat / 16), hexDigitChar (c.toNat % 16)]
  else [c]

def escapeStr (s : List Char) : List Char := s.flatMap escapeChar

def unhexDigit (c : Char) : Option Nat :=
  if 48 ≤ c.toNat ∧ c.toNat ≤ 57 then some (c.toNat - 48)
  else if 97 ≤ c.toNat ∧ c.toNat ≤ 102 then some (c.toNat - 87)
  else if 65 ≤ c.toNat ∧ c.toNat ≤ 70 then some (c.toNat - 55)
  else none

/-- The `\uXXXX` escape: four hex digits after `\u`. -/
def jsonUnescapeU (rest1 : List Char) : Option (Option Char × List Char) :=
  match rest1 with
  | h1 :: h2 :: h3 :: h4 :: rest2 =>
    match unhexDigit h1, unhexDigit h2, unhexDigit h3, unhexDigit h4 with
    | some d1, some d2, some d3, some d4 =>
      some (some (Char.ofNat (((d1 * 16 + d2) * 16 + d3) * 16 + d4)), rest2)
    | _, _, _, _ => none
  | _ => none

/-- The character after a backslash. -/
def jsonUnescapeEsc (e : Char) (rest1 : List Char) : Option (Option Char × List Char) :=
  if e = '"' then some (some '"', rest1)
  else if e = '\\' then some (some '\\', rest1)
  else if e = '/' then some (some '/', rest1)
  else if e = 'b' then some (some (Char.ofNat 8), rest1)
  else if e = 't' then some (some (Char.ofNat 9), rest1)
  else if e = 'n' then some (some (Char.ofNat 10), rest1)
  else if e = 'f' then some (some (Char.ofNat 12), rest1)
  else if e = 'r' then some (some (Char.ofNat 13), rest1)
  else if e = 'u' then jsonUnescapeU rest1
  else none

/-- One step of JSON string-body parsing: either the closing quote
(`(none, rest)`) or one unescaped character (`(some ch, rest)`). -/
def jsonUnescapeStep : List Char → Option (Option Char × List Char)
  | [] => none
  | c :: rest =>
    if c = '"' then some (none, rest)
    else if c = '\\' then
      match rest with
      | [] => none
      | e :: rest1 => jsonUnescapeEsc e rest1
    else some (some c, rest)

theorem jsonUnescapeU_length {rest1 rest : List Char} {x : Option Char}
    (h : jsonUnescapeU rest1 = some (x, rest)) : rest.length + 4 ≤ rest1.length := by
  rcases rest1 with _ | ⟨h1, _ | ⟨h2, _ | ⟨h3, _ | ⟨h4, rest2⟩⟩⟩⟩ <;>
      simp only [jsonUnescapeU] at h <;>
    (try exact absurd h (by simp))
  rcases hd1 : unhexDigit h1 with _ | d1 <;>
    rcases hd2 : unhexDigit h2 with _ | d2 <;>
      rcases hd3 : unhexDigit h3 with _ | d3 <;>
        rcases hd4 : unhexDigit h4 with _ | d4 <;>
          simp_all <;> omega

theorem jsonUnescapeEsc_length {e : Char} {rest1 rest : List Char} {x : Option Char}
    (h : jsonUnescapeEsc e rest1 = some (x, rest)) : rest.length ≤ rest1.length := by
  unfold jsonUnescapeEsc at h
  split_ifs at h <;>
    first
      | (simp only [Option.some.injEq, Prod.mk.injEq] at h
         rw [← h.2])
      | (have h2 := jsonUnescapeU_length h; omega)

theorem jsonUnescapeStep_length {cs rest : List Char} {x : Option Char}
    (h : jsonUnescapeStep cs = some (x, rest)) : rest.length < cs.length := by
  cases cs with
  | nil => simp [jsonUnescapeStep] at h
  | cons c rest0 =>
    simp only [jsonUnescapeStep] at h
    split_ifs at h
    · simp only [Option.some.injEq, Prod.mk.injEq] at h
      rw [← h.2]
      simp
    · rcases rest0 with _ | ⟨e, rest1⟩
      · simp at h
      · have := jsonUnescapeEsc_length h
        simp only [List.length_cons]
        omega
    · simp only [Option.some.injEq, Prod.mk.injEq] at h
      rw [← h.2]
      simp

/-- Fuel-indexed JSON string-body parser (the part after the opening quote);
returns the unescaped characters and the input after the closing quote. -/
def parseStrAux : Nat → List Char → Option (List Char × List Char)
  | 0, _ => none
  | fuel + 1, cs =>
    match jsonUnescapeStep cs with
    | some (none, rest) => some ([], rest)
    | some (some ch, rest) => (parseStrAux fuel rest).map (fun p => (ch :: p.1, p.2))
    | none => none

def parseJsonStr (cs : List Char) : Option (List Char × List Char) :=
  parseStrAux cs.length cs

theorem parseStrAux_fuel (f : Nat) : ∀ (g : Nat) (cs : List Char),
    cs.length ≤ f → cs.length ≤ g → parseStrAux f cs = parseStrAux g cs := by
  induction f with
  | zero =>
    intro g cs hf hg
    cases cs with
    | nil =>
      cases g with
      | zero => rfl
      | succ g => simp [parseStrAux, jsonUnescapeStep]
    | cons c rest => simp at hf
  | succ f ih =>
    intro g cs hf hg
    cases cs with
    | nil =>
      cases g with
      | zero => simp [parseStrAux, jsonUnescapeStep]
      | succ g => rfl
    | cons c rest =>
      cases g with
      | zero => simp at hg
      | succ g =>
        simp only [parseStrAux]
        cases hone : jsonUnescapeStep (c :: rest) with
        | none => rfl
        | some p =>
          obtain ⟨x, tail⟩ := p
          have hlen := jsonUnescapeStep_length hone
          simp only [List.length_cons] at hf hg hlen
          cases x with
          | none => rfl
          | some ch =>
            exact congrArg (Option.map fun p => (ch :: p.1, p.2))
              (ih g tail (by omega) (by omega))

theorem unhexDigit_hexDigitChar {k : Nat} (h : k < 16) :
    unhexDigit (hexDigitChar k) = some k := by
  interval_cases k <;> decide

theorem jsonUnescapeStep_quote (rest : List Char) :
    jsonUnescapeStep ('"' :: rest) = some (none, rest) := by
  simp [jsonUnescapeStep]

theorem jsonUnescapeStep_backslash (e : Char) (rest : List Char) :
    jsonUnescapeStep ('\\' :: e :: rest) = jsonUnescapeEsc e rest := by
  simp [jsonUnescapeStep]

theorem jsonUnescapeStep_plain {c : Char} (h1 : ¬c = '"') (h2 : ¬c = '\\')
    (rest : List Char) : jsonUnescapeStep (c :: rest) = some (some c, rest) := by
  simp only [jsonUnescapeStep]
  rw [if_neg h1, if_neg h2]

/-- The one-step parser undoes `escapeChar`. -/
theorem jsonUnescapeStep_escapeChar (c : Char) (rest : List Char) :
    jsonUnescapeStep (escapeChar c ++ rest) = some (some c, rest) := by
  unfold escapeChar
  have hofn : Char.ofNat c.toNat = c := Char.ofNat_toNat c
  by_cases hq : c = '"'
  · rw [if_pos hq]
    simp only [List.cons_append, List.nil_append]
    rw [jsonUnescapeStep_backslash]
    unfold jsonUnescapeEsc
    rw [if_pos rfl, hq]
  rw [if_neg hq]
  by_cases hb : c = '\\'
  · rw [if_pos hb]
    simp only [List.cons_append, List.nil_append]
    rw [jsonUnescapeStep_backslash]
    unfold jsonUnescapeEsc
    rw [if_neg (by decide), if_pos rfl, hb]
  rw [if_neg hb]
  by_cases hc : c.toNat < 0x20
  · rw [if_pos hc]
    by_cases h8 : c.toNat = 8
    · rw [if_pos h8]
      simp only [List.cons_append, List.nil_append]
      rw [jsonUnescapeStep_backslash]
      unfold jsonUnescapeEsc
      rw [if_neg (by decide), if_neg (by decide), if_neg (by decide), if_pos rfl,
        ← hofn, h8]
    rw [if_neg h8]
    by_cases h9 : c.toNat = 9
    · rw [if_pos h9]
      simp only [List.cons_append, List.nil_append]
      rw [jsonUnescapeStep_backslash]
      unfold jsonUnescapeEsc
      rw [if_neg (by decide), if_neg (by decide), if_neg (by decide), if_neg (by decide),
        if_pos rfl, ← hofn, h9]
    rw [if_neg h9]
    by_cases h10 : c.toNat = 10
    · rw [if_pos h10]
      simp only [List.cons_append, List.nil_append]
      rw [jsonUnescapeStep_backslash]
      unfold jsonUnescapeEsc
      rw [if_neg (by decide), if_neg (by decide), if_neg (by decide), if_neg (by decide),
        if_neg (by decide), if_pos rfl, ← hofn, h10]
    rw [if_neg h10]
    by_cases h12 : c.toNat = 12
    · rw [if_pos h12]
      simp only [List.cons_append, List.nil_append]
      rw [jsonUnescapeStep_backslash]
      unfold jsonUnescapeEsc
      rw [if_neg (by decide), if_neg (by decide), if_neg (by decide), if_neg (by decide),
        if_neg (by decide), if_neg (by decide), if_pos rfl, ← hofn, h12]
    rw [if_neg h12]
    by_cases h13 : c.toNat = 13
    · rw [if_pos h13]
      simp only [List.cons_append, List.nil_append]
      rw [jsonUnescapeStep_backslash]
      unfold jsonUnescapeEsc
      rw [if_neg (by decide), if_neg (by decide), if_neg (by decide), if_neg (by decide),
        if_neg (by decide), if_neg (by decide), if_neg (by decide), if_pos rfl,
        ← hofn, h13]
    rw [if_neg h13]
    simp only [List.cons_append, List.nil_append]
    rw [jsonUnescapeStep_backslash]
    unfold jsonUnescapeEsc
    rw [if_neg (by decide), if_neg (by decide), if_neg (by decide), if_neg (by decide),
      if_neg (by decide), if_neg (by decide), if_neg (by decide), if_neg (by decide),
      if_pos rfl]
    unfold jsonUnescapeU
    have h0 : unhexDigit '0' = some 0 := by decide
    have hu1 : unhexDigit (hexDigitChar (c.toNat / 16)) = some (c.toNat / 16) :=
      unhexDigit_hexDigitChar (by omega)
    have hu2 : unhexDigit (hexDigitChar (c.toNat % 16)) = some (c.toNat % 16) :=
      unhexDigit_hexDigitChar (by omega)
    simp only [h0, hu1, hu2]
    have hval : ((0 * 16 + 0) * 16 + c.toNat / 16) * 16 + c.toNat % 16 = c.toNat := by
      omega
    rw [hval, hofn]
  · rw [if_neg hc]
    simp only [List.cons_append, List.nil_append]
    exact jsonUnescapeStep_plain hq hb rest

/-- Parsing the escape of `s` followed by a closing quote recovers `s`. -/
theorem parseStrAux_escape (s : List Char) : ∀ (fuel : Nat) (rest : List Char),
    (escapeStr s ++ '"' :: rest).length ≤ fuel →
    parseStrAux fuel (escapeStr s ++ '"' :: rest) = some (s, rest) := by
  induction s with
  | nil =>
    intro fuel rest hf
    simp only [escapeStr, List.flatMap_nil, List.nil_append] at hf ⊢
    cases fuel with
    | zero => simp at hf
    | succ fuel => simp [parseStrAux, jsonUnescapeStep]
  | cons c s ih =>
    intro fuel rest hf
    have hesc : escapeStr (c :: s) = escapeChar c ++ escapeStr s :=
      List.flatMap_cons ..
    rw [hesc, List.append_assoc] at hf ⊢
    cases fuel with
    | zero =>
      exfalso
      have : 1 ≤ (escapeChar c).length := by
        unfold escapeChar
        split_ifs <;> simp
      simp only [List.length_append] at hf
      omega
    | succ fuel =>
      simp only [parseStrAux, jsonUnescapeStep_escapeChar]
      have hcons : 1 ≤ (escapeChar c).length := by
        unfold escapeChar
        split_ifs <;> simp
      rw [ih fuel rest (by simp only [List.length_append] at hf ⊢; omega)]
      rfl

theorem parseJsonStr_escape (s rest : List Char) :
    parseJsonStr (escapeStr s ++ '"' :: rest) = some (s, rest) :=
  parseStrAux_escape s _ rest (le_refl _)

/-! ## Commands and their `serde_json` serialization -/

/-- The `Command` enum of `src/lib.rs`: `Set { key, value }` / `Remove { key }`. -/
inductive Command where
  | set (key value : String)
  | remove (key : String)
deriving DecidableEq, Repr

/-- Bytes of a character sequence under UTF-8. -/
def charsBytes (cs : List Char) : List Nat :=
  cs.flatMap (fun ch => utf8EncodeNat ch.toNat)

theorem charsBytes_lt (cs : List Char) : ∀ b ∈ charsBytes cs, b < 256 := by
  intro b hb
  rw [charsBytes, List.mem_flatMap] at hb
  obtain ⟨c, _, hbc⟩ := hb
  exact utf8EncodeNat_bytes_lt (char_toNat_lt c) b hbc

def setJsonHead : List Char := "\x7b\"Set\":\x7b\"key\":\"".data

def remJsonHead : List Char := "\x7b\"Remove\":\x7b\"key\":\"".data

def valueLit : List Char := ",\"value\":\"".data

def endLit : List Char := "\"\x7d\x7d".data

/-- `serde_json::to_string(&cmd)`: the externally tagged encoding
`{"Set":{"key":K,"value":V}}` / `{"Remove":{"key":K}}` with JSON string
escaping of the key and value. -/
def serializeChars : Command → List Char
  | .set k v =>
    setJsonHead ++ escapeStr k.data ++ '"' :: valueLit ++ escapeStr v.data ++ endLit
  | .remove k => remJsonHead ++ escapeStr k.data ++ endLit

/-- Consume an expected literal from the front of the input. -/
def dropLit : List Char → List Char → Option (List Char)
  | [], cs => some cs
  | p :: ps, c :: cs => if c = p then dropLit ps cs else none
  | _ :: _, [] => none

def parseSetTail (cs1 : List Char) : Option Command :=
  (parseJsonStr cs1).bind fun p1 =>
    (dropLit valueLit p1.2).bind fun cs3 =>
      (parseJsonStr cs3).bind fun p2 =>
        if p2.2 = "\x7d\x7d".data then some (.set (String.mk p1.1) (String.mk p2.1))
        else none

def parseRemTail (cs1 : List Char) : Option Command :=
  (parseJsonStr cs1).bind fun p1 =>
    if p1.2 = "\x7d\x7d".data then some (.remove (String.mk p1.1)) else none

/-- `serde_json::from_slice::<Command>` on already-UTF-8-decoded characters:
a parser for exactly the two shapes the serializer produces. -/
def deserializeChars (cs : List Char) : Option Command :=
  (dropLit setJsonHead cs).elim ((dropLit remJsonHead cs).bind parseRemTail) parseSetTail

theorem dropLit_append (p r : List Char) : dropLit p (p ++ r) = some r := by
  induction p with
  | nil => rfl
  | cons c ps ih => simp [dropLit, ih]

theorem dropLit_set_rem (r : List Char) :
    dropLit setJsonHead (remJsonHead ++ r) = none := by
  simp [dropLit, setJsonHead, remJsonHead]

/-- The JSON command codec round-trips. -/
theorem deserializeChars_serializeChars (c : Command) :
    deserializeChars (serializeChars c) = some c := by
  have hend : endLit = '"' :: "\x7d\x7d".data := rfl
  cases c with
  | set k v =>
    simp only [serializeChars, deserializeChars, hend, List.cons_append, List.append_assoc]
    rw [dropLit_append, Option.elim_some]
    simp only [parseSetTail, parseJsonStr_escape, Option.some_bind, dropLit_append]
    rfl
  | remove k =>
    simp only [serializeChars, deserializeChars, hend, List.cons_append, List.append_assoc]
    rw [dropLit_set_rem, Option.elim_none, dropLit_append, Option.some_bind]
    simp only [parseRemTail, parseJsonStr_escape, Option.some_bind]
    rfl

/-- Payload bytes of a command: `serde_json::to_string(&cmd)` as UTF-8 bytes. -/
def serialize (c : Command) : List Nat := charsBytes (serializeChars c)

/-- `serde_json::from_slice::<Command>`: UTF-8 decoding then JSON parsing. -/
def deserialize (bs : List Nat) : Option Command :=
  (utf8DecodeChars bs).bind deserializeChars

theorem serialize_bytes_lt (c : Command) : ∀ b ∈ serialize c, b < 256 :=
  charsBytes_lt (serializeChars c)

/-- The command codec round-trips at the byte level. -/
theorem deserialize_serialize (c : Command) : deserialize (serialize c) = some c := by
  unfold deserialize serialize charsBytes
  have h := utf8DecodeChars_encodeList (serializeChars c) []
  rw [List.append_nil] at h
  rw [h]
  have hnil : utf8DecodeChars [] = some [] := rfl
  rw [hnil]
  simp [deserializeChars_serializeChars]

/-! ## Record codec, positional reads, association maps -/

/-- A log record as `write_data` lays it out (`src/db_write/writer.rs`):
4-byte LE CRC-32 of the payload, 8-byte LE payload length, then the payload. -/
def mkRecord (payload : List Nat) : List Nat :=
  u32le (crc32 payload) ++ u64le payload.length ++ payload

theorem mkRecord_length (payload : List Nat) :
    (mkRecord payload).length = 12 + payload.length := by
  simp [mkRecord, u32le, u64le]
  omega

/-- Error kinds: the spec's classification of the `io::Error`/serde error
values the code produces (§7). `corruption` is the `"crc mismatch"` error,
`eof` is `UnexpectedEof`, `codec` a serde failure, `keyNotFound` the
`NotFound` error of `remove`. -/
inductive Err where
  | keyNotFound
  | corruption
  | eof
  | io
  | codec
deriving DecidableEq, Repr

/-- Modelled from the spec: `DataReader::read_data` (its definition is not
among the source files; §4.1 `read_at`): positionally read the 12-byte header
at `pos`, then `L` payload bytes; a short read is `UnexpectedEof`; the CRC is
returned unverified. -/
def readData (file : List Nat) (pos : Nat) : Except Err (Nat × List Nat) :=
  if pos + 12 ≤ file.length then
    if pos + 12 + leNat (slice file (pos + 4) 8) ≤ file.length then
      .ok (leNat (slice file pos 4), slice file (pos + 12) (leNat (slice file (pos + 4) 8)))
    else .error .eof
  else .error .eof

/-- `CommandPos` of the multi-segment variant: `file_num`, `pos`, `len`
(`src/db_read/compaction.rs`; the `len` stored by `write_data` is the full
record length `4 + 8 + L`). -/
structure CommandPos where
  fileNum : Nat
  pos : Nat
  len : Nat
deriving DecidableEq, Repr

/-- Association-list lookup: the semantics of `HashMap::get`. -/
def alookup {β : Type} [DecidableEq β] (m : List (β × CommandPos)) (k : β) :
    Option CommandPos :=
  match m with
  | [] => none
  | (k', p) :: rest => if k' = k then some p else alookup rest k

/-- Association-list insert-or-replace: the semantics of `HashMap::insert`. -/
def ainsert {β : Type} [DecidableEq β] (m : List (β × CommandPos)) (k : β)
    (v : CommandPos) : List (β × CommandPos) :=
  match m with
  | [] => [(k, v)]
  | (k', v') :: rest => if k' = k then (k, v) :: rest else (k', v') :: ainsert rest k v

/-- Association-list removal: the semantics of `HashMap::remove`. -/
def aerase {β : Type} [DecidableEq β] (m : List (β × CommandPos)) (k : β) :
    List (β × CommandPos) :=
  match m with
  | [] => []
  | (k', v') :: rest => if k' = k then rest else (k', v') :: aerase rest k

/-- Lookup in the generation-to-file-contents map (`readers` plus the files). -/
def flookup (fs : List (Nat × List Nat)) (g : Nat) : Option (List Nat) :=
  match fs with
  | [] => none
  | (g', b) :: rest => if g' = g then some b else flookup rest g

/-- Insert-or-replace a generation's file, keeping generations sorted
(a canonical representation of the unordered `HashMap<u64, DataReader>`). -/
def finsert (fs : List (Nat × List Nat)) (g : Nat) (bytes : List Nat) :
    List (Nat × List Nat) :=
  match fs with
  | [] => [(g, bytes)]
  | (g', b') :: rest =>
    if g = g' then (g, bytes) :: rest
    else if g < g' then (g, bytes) :: (g', b') :: rest
    else (g', b') :: finsert rest g bytes

/-! ## The store -/

/-- The store state.  The async `BitCaskPlus` struct itself is not among the
source files; the fields follow its uses in the source: `map` is the index,
`files` the segments keyed by generation (the `readers` map together with the
file contents), `curGen` the generation the writer appends to, `uncompacted`
the reclaimable-bytes counter.  `deleted` is ghost state recording every
generation whose file has been unlinked (`fs::remove_file`). -/
structure Store where
  files : List (Nat × List Nat)
  curGen : Nat
  map : List (String × CommandPos)
  uncompacted : Nat
  deleted : List Nat
deriving DecidableEq, Repr

def COMPACTION_THRESHOLD : Nat := 1024 * 1024

/-- `write_data` (`src/db_write/writer.rs`): flush, seek to the end of the
active file, write the CRC, the LE length and the payload, flush; return the
record's position and length `4 + 8 + L`.  The `file_num` of the returned
`CommandPos` is modelled from the spec (§4.3: the new record lives in the
active segment). -/
def writeData (st : Store) (cmd : Command) : Store × CommandPos :=
  let payload := serialize cmd
  let file := (flookup st.files st.curGen).getD []
  ({ st with files := finsert st.files st.curGen (file ++ mkRecord payload) },
   { fileNum := st.curGen, pos := file.length, len := 4 + 8 + payload.length })

/-- The stale generations collected before the delete loop
(`src/db_read/compaction.rs`): every reader generation below the compaction
generation. -/
def staleGens (fs : List (Nat × List Nat)) (cg : Nat) : List Nat :=
  (fs.map Prod.fst).filter (fun g => g < cg)

/-- The copy loop of `compaction` (`src/db_read/compaction.rs`): for each
snapshot entry, read its record bytes from its source segment
(`migrate_entry`, no CRC verification) and append them to the compaction
file, recording the new location; a missing reader
(`.expect("Can not find db file")`) or a short `read_exact_at` is an error. -/
def copyEntries (fs : List (Nat × List Nat)) (cg : Nat) :
    List (String × CommandPos) → Nat → List Nat → List (String × CommandPos) →
    List Nat × List (String × CommandPos) × Option Err
  | [], _, buf, nm => (buf, nm, none)
  | (k, p) :: rest, newPos, buf, nm =>
    match flookup fs p.fileNum with
    | none => (buf, nm, some .io)
    | some file =>
      if p.pos + p.len ≤ file.length then
        copyEntries fs cg rest (newPos + p.len) (buf ++ slice file p.pos p.len)
          (ainsert nm k { fileNum := cg, pos := newPos, len := p.len })
      else (buf, nm, some .io)

/-- The merge loop of `compaction`: an index entry is replaced by its new
location only if it still points below the compaction generation. -/
def mergeMap (m nm : List (String × CommandPos)) (cg : Nat) :
    List (String × CommandPos) :=
  nm.foldl (fun acc kv =>
    match alookup acc kv.1 with
    | some cur => if cur.fileNum < cg then ainsert acc kv.1 kv.2 else acc
    | none => acc) m

/-- The first phase of `compaction`: flush the writer, redirect it to a fresh
generation `cur_gen + 2`, and create the compaction file of generation
`cur_gen + 1` (both via `new_log_file`, which is modelled from the spec as
creating an empty registered segment). -/
def compactPhase1 (st : Store) : Store :=
  { st with
    curGen := st.curGen + 2
    files := finsert (finsert st.files (st.curGen + 2) []) (st.curGen + 1) [] }

def compactCopyRes (st : Store) :
    List Nat × List (String × CommandPos) × Option Err :=
  copyEntries (compactPhase1 st).files (st.curGen + 1) st.map 0 [] []

/-- The store state inside `compaction` after the copied records are flushed
into the compaction file and the stale files are deleted, but before the merge
loop touches the index. -/
def compactAfterDelete (st : Store) : Store :=
  match compactCopyRes st with
  | (_, _, some _) => compactPhase1 st
  | (buf, _, none) =>
    { compactPhase1 st with
      files := (finsert (compactPhase1 st).files (st.curGen + 1) buf).filter
        (fun p => decide (st.curGen + 1 ≤ p.1))
      deleted := st.deleted ++
        staleGens (finsert (compactPhase1 st).files (st.curGen + 1) buf) (st.curGen + 1) }

/-- `compaction` (`src/db_read/compaction.rs`): phase 1, copy loop, flush,
delete stale files, merge the index, reset the counter.  An error in the copy
loop aborts with the writer already redirected and the unflushed compaction
buffer dropped. -/
def compaction (st : Store) : Store × Option Err :=
  match compactCopyRes st with
  | (_, _, some e) => (compactPhase1 st, some e)
  | (_, nm, none) =>
    ({ compactAfterDelete st with
        map := mergeMap st.map nm (st.curGen + 1)
        uncompacted := 0 }, none)

/-- `set` (`src/db_write/writer.rs`): write the record, insert the new
location (charging a displaced entry to the reclaimable counter), and compact
when the counter exceeds the threshold. -/
def set (st : Store) (key val : String) : Store × Option Err :=
  let r := writeData st (.set key val)
  let oldLen := match alookup r.1.map key with
    | some old => old.len
    | none => 0
  let st2 := { r.1 with
    map := ainsert r.1.map key r.2
    uncompacted := r.1.uncompacted + oldLen }
  if COMPACTION_THRESHOLD < st2.uncompacted then compaction st2 else (st2, none)

/-- `remove` (`src/db_write/writer.rs`): `KeyNotFound` if the key is absent
(before anything is written); otherwise append a tombstone, drop the index
entry, charge both the displaced entry and the tombstone to the counter, and
maybe compact. -/
def remove (st : Store) (key : String) : Store × Option Err :=
  if alookup st.map key = none then (st, some .keyNotFound)
  else
    let r := writeData st (.remove key)
    let st2 := { r.1 with
      map := aerase r.1.map key
      uncompacted := r.1.uncompacted +
        (match alookup r.1.map key with
          | some old => old.len + r.2.len
          | none => 0) }
    if COMPACTION_THRESHOLD < st2.uncompacted then compaction st2 else (st2, none)

/-- `get` (`src/db_read/reader.rs`): look up the index; read the record; check
the CRC (`"crc mismatch"` is the corruption error); deserialize; a `Set`
yields its value, a `Remove` yields `None`.  Which segment is read is
modelled from the spec (§4.6: the referenced segment; the source's single
`DataReader` predates the multi-segment fields used by `compaction`). -/
def get (st : Store) (key : String) : Except Err (Option String) :=
  match alookup st.map key with
  | none => .ok none
  | some p =>
    match flookup st.files p.fileNum with
    | none => .error .io
    | some file =>
      match readData file p.pos with
      | .error e => .error e
      | .ok (expectCrc, buffer) =>
        if crc32 buffer ≠ expectCrc then .error .corruption
        else
          match deserialize buffer with
          | none => .error .codec
          | some (.set _ value) => .ok (some value)
          | some (.remove _) => .ok none

/-! ## Recovery scanner and `open` (`src/db_read/reader.rs`) -/

/-- The scanner/replay state: the index being rebuilt and the
reclaimable-bytes counter. -/
structure ScanSt where
  map : List (String × CommandPos)
  uncompacted : Nat
deriving DecidableEq, Repr

/-- One replayed command (the consumer loop of `open` in
`src/db_read/reader.rs`): a `Set` inserts/replaces the entry, charging a
displaced entry to the counter; a `Remove` drops the entry (charging it if
present) and always charges its own record length.  The `file_num` stored in
rebuilt entries is modelled from the spec (§4.4: the scanned segment's
generation). -/
def replayStep (gen : Nat) (s : ScanSt) (cmd : Command) (pos entryLen : Nat) : ScanSt :=
  match cmd with
  | .set k _ =>
    { map := ainsert s.map k { fileNum := gen, pos := pos, len := entryLen }
      uncompacted := s.uncompacted +
        (match alookup s.map k with
          | some old => old.len
          | none => 0) }
  | .remove k =>
    { map := aerase s.map k
      uncompacted := s.uncompacted +
        (match alookup s.map k with
          | some old => old.len
          | none => 0) + entryLen }

/-- The scan loop of `open`: read a record at the cursor, stop on
`UnexpectedEof` (truncated tail), on a CRC mismatch, or on a serde error
(all merely end the scan); otherwise replay the command and advance by
`12 + L`.  `rest` is the unread part of the file, `pos` the absolute offset
of its start; the fuel (`rest.length` at the start suffices) only realizes
termination. -/
def scanAux (gen : Nat) : Nat → List Nat → Nat → ScanSt → ScanSt
  | 0, _, _, s => s
  | fuel + 1, rest, pos, s =>
    match readData rest 0 with
    | .error _ => s
    | .ok (expectCrc, buf) =>
      if crc32 buf ≠ expectCrc then s
      else
        match deserialize buf with
        | none => s
        | some cmd =>
          scanAux gen fuel (rest.drop (12 + buf.length)) (pos + (12 + buf.length))
            (replayStep gen s cmd pos (12 + buf.length))

/-- Scan one segment from offset 0 with an empty index. -/
def scanLog (gen : Nat) (data : List Nat) : ScanSt :=
  scanAux gen data.length data 0 { map := [], uncompacted := 0 }

/-- Decimal digit run, for the spec-modelled hint-entry codec. -/
def parseDigitsAux : List Char → Nat → Nat × List Char
  | [], acc => (acc, [])
  | c :: rest, acc =>
    if 48 ≤ c.toNat ∧ c.toNat ≤ 57 then parseDigitsAux rest (acc * 10 + (c.toNat - 48))
    else (acc, c :: rest)

def parseDigits (cs : List Char) : Option (Nat × List Char) :=
  match cs with
  | c :: _ => if 48 ≤ c.toNat ∧ c.toNat ≤ 57 then some (parseDigitsAux cs 0) else none
  | [] => none

/-- Modelled from the spec: the hint-entry payload codec
(§4.5: a payload that "serializes `(key, {offset, length})`"; the source uses
`serde_json` on `(String, CommandPos)`, giving `["k",{"file_num":..,"pos":..,
"len":..}]`). -/
def parseHintEntry (bs : List Nat) : Option (String × CommandPos) :=
  (utf8DecodeChars bs).bind fun cs =>
  (dropLit "[\"".data cs).bind fun cs1 =>
  (parseJsonStr cs1).bind fun p1 =>
  (dropLit ",\x7b\"file_num\":".data p1.2).bind fun cs2 =>
  (parseDigits cs2).bind fun d1 =>
  (dropLit ",\"pos\":".data d1.2).bind fun cs3 =>
  (parseDigits cs3).bind fun d2 =>
  (dropLit ",\"len\":".data d2.2).bind fun cs4 =>
  (parseDigits cs4).bind fun d3 =>
  if d3.2 = "\x7d]".data then
    some (String.mk p1.1, { fileNum := d1.1, pos := d2.1, len := d3.1 })
  else none

/-- The hint loop of `open` (`src/db_read/reader.rs`): read a 4-byte LE
length prefix (EOF at this boundary ends the loop normally), then the entry
payload (EOF here is returned as an error — `open` fails), deserialize it
(failure is returned as an error) and insert it into `new_map`. -/
def parseHintAux : Nat → List Nat → List (String × CommandPos) →
    Except Err (List (String × CommandPos))
  | 0, _, m => .ok m
  | fuel + 1, bs, m =>
    if bs.length < 4 then .ok m
    else
      let len := leNat (bs.take 4)
      let rest := bs.drop 4
      if rest.length < len then .error .eof
      else
        match parseHintEntry (rest.take len) with
        | some kp => parseHintAux fuel (rest.drop len) (ainsert m kp.1 kp.2)
        | none => .error .codec

def parseHint (hb : List Nat) : Except Err (List (String × CommandPos)) :=
  parseHintAux hb.length hb []

/-- `open` (`src/db_read/reader.rs`) on the contents of the data file, with
the hint file's contents when `bitcaskplus.hint` exists: if a hint exists it
is parsed into `new_map` — which the function then never uses — and any hint
parse error aborts `open`; the data file is always scanned.  The single data
file becomes generation 0 (the generation numbering is modelled from the
spec's multi-segment layout; the source reads the one file `bitcaskplus.db`). -/
def openWithHint (hint : Option (List Nat)) (data : List Nat) : Except Err Store :=
  match hint with
  | some hb =>
    match parseHint hb with
    | .error e => .error e
    | .ok _newMap =>
      .ok { files := [(0, data)], curGen := 0, map := (scanLog 0 data).map,
            uncompacted := (scanLog 0 data).uncompacted, deleted := [] }
  | none =>
    .ok { files := [(0, data)], curGen := 0, map := (scanLog 0 data).map,
          uncompacted := (scanLog 0 data).uncompacted, deleted := [] }

/-- Modelled from the spec: reopening a multi-segment store replays every
segment in generation order (§4.4); `files` is kept sorted by generation. -/
def openFromFiles (files : List (Nat × List Nat)) : Store :=
  let s := files.foldl (fun acc p => scanAux p.1 p.2.length p.2 0 acc)
    { map := [], uncompacted := 0 }
  { files := files, curGen := (files.map Prod.fst).foldl max 0, map := s.map,
    uncompacted := s.uncompacted, deleted := [] }

/-- The client-visible operations interleaved between a write and a later
read (`set`, `remove`, and an explicit `compaction`). -/
inductive Op where
  | opSet (k v : String)
  | opRemove (k : String)
  | opCompact
deriving DecidableEq, Repr

def applyOp (st : Store) (o : Op) : Store :=
  match o with
  | .opSet k v => (set st k v).1
  | .opRemove k => (remove st k).1
  | .opCompact => (compaction st).1

def applyOps (st : Store) (ops : List Op) : Store := ops.foldl applyOp st

/-- Whether an operation writes the key `k`. -/
def touches (k : String) : Op → Prop
  | .opSet k' _ => k' = k
  | .opRemove k' => k' = k
  | .opCompact => False

instance (k : String) (o : Op) : Decidable (touches k o) := by
  cases o <;> simp only [touches] <;> infer_instance

/-! ## Association-map lemmas -/

section AssocLemmas

variable {β : Type} [DecidableEq β]

theorem alookup_ainsert_self (m : List (β × CommandPos)) (k : β) (v : CommandPos) :
    alookup (ainsert m k v) k = some v := by
  induction m with
  | nil => simp [ainsert, alookup]
  | cons kv rest ih =>
    obtain ⟨k', v'⟩ := kv
    by_cases h : k' = k
    · subst h
      simp [ainsert, alookup]
    · simp [ainsert, alookup, h, ih]

theorem alookup_ainsert_ne (m : List (β × CommandPos)) {k k' : β} (v : CommandPos)
    (h : k' ≠ k) : alookup (ainsert m k v) k' = alookup m k' := by
  have h2 : ¬k = k' := fun he => h he.symm
  induction m with
  | nil => simp [ainsert, alookup, h2]
  | cons kv rest ih =>
    obtain ⟨k0, v0⟩ := kv
    by_cases h0 : k0 = k
    · subst h0
      simp [ainsert, alookup, h2]
    · simp only [ainsert, if_neg h0, alookup]
      by_cases h1 : k0 = k' <;> simp [h1, ih]

theorem alookup_aerase_ne (m : List (β × CommandPos)) {k k' : β} (h : k' ≠ k) :
    alookup (aerase m k) k' = alookup m k' := by
  have h2 : ¬k = k' := fun he => h he.symm
  induction m with
  | nil => simp [aerase]
  | cons kv rest ih =>
    obtain ⟨k0, v0⟩ := kv
    by_cases h0 : k0 = k
    · subst h0
      simp [aerase, alookup, h2]
    · simp only [aerase, if_neg h0, alookup]
      by_cases h1 : k0 = k' <;> simp [h1, ih]

theorem alookup_eq_none_of_not_mem {m : List (β × CommandPos)} {k : β}
    (h : k ∉ m.map Prod.fst) : alookup m k = none := by
  induction m with
  | nil => rfl
  | cons kv rest ih =>
    obtain ⟨k0, v0⟩ := kv
    simp only [List.map_cons, List.mem_cons, not_or] at h
    have h0 : ¬k0 = k := fun he => h.1 he.symm
    simp only [alookup, if_neg h0]
    exact ih h.2

theorem alookup_aerase_self (m : List (β × CommandPos)) (k : β)
    (hnd : (m.map Prod.fst).Nodup) : alookup (aerase m k) k = none := by
  induction m with
  | nil => simp [aerase, alookup]
  | cons kv rest ih =>
    obtain ⟨k0, v0⟩ := kv
    simp only [List.map_cons, List.nodup_cons] at hnd
    by_cases h0 : k0 = k
    · subst h0
      simp only [aerase, if_pos rfl]
      exact alookup_eq_none_of_not_mem hnd.1
    · simp only [aerase, if_neg h0, alookup, if_neg h0]
      exact ih hnd.2

theorem mem_of_alookup_eq_some {m : List (β × CommandPos)} {k : β} {p : CommandPos}
    (h : alookup m k = some p) : (k, p) ∈ m := by
  induction m with
  | nil => simp [alookup] at h
  | cons kv rest ih =>
    obtain ⟨k0, v0⟩ := kv
    simp only [alookup] at h
    by_cases h0 : k0 = k
    · rw [if_pos h0] at h
      obtain rfl := Option.some_inj.mp h
      simp [h0]
    · rw [if_neg h0] at h
      exact List.mem_cons_of_mem _ (ih h)

theorem mem_ainsert {m : List (β × CommandPos)} {k : β} {v : CommandPos} :
    ∀ kp ∈ ainsert m k v, kp = (k, v) ∨ kp ∈ m := by
  induction m with
  | nil =>
    intro kp hkp
    simp only [ainsert, List.mem_singleton] at hkp
    exact Or.inl hkp
  | cons kv rest ih =>
    intro kp hkp
    obtain ⟨k0, v0⟩ := kv
    by_cases h0 : k0 = k
    · simp only [ainsert, if_pos h0, List.mem_cons] at hkp
      rcases hkp with heq | hkp
      · exact Or.inl (h0 ▸ heq)
      · exact Or.inr (List.mem_cons_of_mem _ hkp)
    · simp only [ainsert, if_neg h0, List.mem_cons] at hkp
      rcases hkp with heq | hkp
      · exact Or.inr (heq ▸ List.mem_cons_self _ _)
      · rcases ih kp hkp with h | hm
        · exact Or.inl h
        · exact Or.inr (List.mem_cons_of_mem _ hm)

theorem keys_ainsert_sub {m : List (β × CommandPos)} {k : β} {v : CommandPos} :
    ∀ x ∈ (ainsert m k v).map Prod.fst, x = k ∨ x ∈ m.map Prod.fst := by
  intro x hx
  rw [List.mem_map] at hx
  obtain ⟨kp, hkp, rfl⟩ := hx
  rcases mem_ainsert kp hkp with rfl | hm
  · exact Or.inl rfl
  · exact Or.inr (List.mem_map_of_mem Prod.fst hm)

theorem ainsert_keys_nodup {m : List (β × CommandPos)} {k : β} {v : CommandPos}
    (hnd : (m.map Prod.fst).Nodup) : ((ainsert m k v).map Prod.fst).Nodup := by
  induction m with
  | nil => simp [ainsert]
  | cons kv rest ih =>
    obtain ⟨k0, v0⟩ := kv
    simp only [List.map_cons, List.nodup_cons] at hnd
    by_cases h0 : k0 = k
    · simp only [ainsert, if_pos h0, List.map_cons, List.nodup_cons]
      subst h0
      exact hnd
    · simp only [ainsert, if_neg h0, List.map_cons, List.nodup_cons]
      refine ⟨fun hmem => ?_, ih hnd.2⟩
      rcases keys_ainsert_sub k0 hmem with rfl | hm
      · exact h0 rfl
      · exact hnd.1 hm

theorem aerase_sublist (m : List (β × CommandPos)) (k : β) :
    List.Sublist (aerase m k) m := by
  induction m with
  | nil => simp [aerase]
  | cons kv rest ih =>
    obtain ⟨k0, v0⟩ := kv
    by_cases h0 : k0 = k
    · simp only [aerase, if_pos h0]
      exact List.sublist_cons_self _ _
    · simp only [aerase, if_neg h0]
      exact List.Sublist.cons₂ _ ih

theorem mem_aerase {m : List (β × CommandPos)} {k : β} {kp : β × CommandPos}
    (h : kp ∈ aerase m k) : kp ∈ m :=
  (aerase_sublist m k).mem h

theorem aerase_keys_nodup {m : List (β × CommandPos)} {k : β}
    (hnd : (m.map Prod.fst).Nodup) : ((aerase m k).map Prod.fst).Nodup :=
  ((aerase_sublist m k).map Prod.fst).nodup hnd

theorem alookup_eq_some_of_mem {m : List (β × CommandPos)} {k : β} {p : CommandPos}
    (hnd : (m.map Prod.fst).Nodup) (hmem : (k, p) ∈ m) : alookup m k = some p := by
  induction m with
  | nil => simp at hmem
  | cons kv rest ih =>
    obtain ⟨k0, v0⟩ := kv
    simp only [List.map_cons, List.nodup_cons] at hnd
    simp only [List.mem_cons] at hmem
    rcases hmem with heq | hmem
    · obtain ⟨rfl, rfl⟩ := Prod.mk.injEq .. ▸ heq
      simp [alookup]
    · have hk : k ∈ rest.map Prod.fst := List.mem_map_of_mem Prod.fst hmem
      have h0 : k0 ≠ k := fun he => hnd.1 (he ▸ hk)
      simp only [alookup, if_neg h0]
      exact ih hnd.2 hmem

end AssocLemmas

/-! ## File-map lemmas -/

theorem flookup_finsert_self (fs : List (Nat × List Nat)) (g : Nat) (b : List Nat) :
    flookup (finsert fs g b) g = some b := by
  induction fs with
  | nil => simp [finsert, flookup]
  | cons gb rest ih =>
    obtain ⟨g0, b0⟩ := gb
    by_cases h0 : g = g0
    · simp [finsert, if_pos h0, flookup, h0]
    · simp only [finsert, if_neg h0]
      by_cases h1 : g < g0
      · simp [if_pos h1, flookup]
      · simp only [if_neg h1, flookup]
        have h2 : ¬g0 = g := fun he => h0 he.symm
        rw [if_neg h2]
        exact ih

theorem flookup_finsert_ne (fs : List (Nat × List Nat)) {g g' : Nat} (b : List Nat)
    (h : g' ≠ g) : flookup (finsert fs g b) g' = flookup fs g' := by
  have h2 : ¬g = g' := fun he => h he.symm
  induction fs with
  | nil => simp [finsert, flookup, h2]
  | cons gb rest ih =>
    obtain ⟨g0, b0⟩ := gb
    by_cases h0 : g = g0
    · subst h0
      simp [finsert, flookup, h2]
    · simp only [finsert, if_neg h0]
      by_cases h1 : g < g0
      · simp only [if_pos h1, flookup, if_neg h2]
      · simp only [if_neg h1, flookup]
        by_cases h3 : g0 = g' <;> simp [h3, ih]

theorem mem_finsert {fs : List (Nat × List Nat)} {g : Nat} {b : List Nat} :
    ∀ gb ∈ finsert fs g b, gb = (g, b) ∨ gb ∈ fs := by
  induction fs with
  | nil =>
    intro gb hgb
    simp only [finsert, List.mem_singleton] at hgb
    exact Or.inl hgb
  | cons gb0 rest ih =>
    intro gb hgb
    obtain ⟨g0, b0⟩ := gb0
    by_cases h0 : g = g0
    · simp only [finsert, if_pos h0, List.mem_cons] at hgb
      rcases hgb with heq | hgb
      · exact Or.inl heq
      · exact Or.inr (List.mem_cons_of_mem _ hgb)
    · simp only [finsert, if_neg h0] at hgb
      by_cases h1 : g < g0
      · rw [if_pos h1] at hgb
        simp only [List.mem_cons] at hgb
        rcases hgb with heq | heq | hgb
        · exact Or.inl heq
        · exact Or.inr (heq ▸ List.mem_cons_self _ _)
        · exact Or.inr (List.mem_cons_of_mem _ hgb)
      · rw [if_neg h1] at hgb
        simp only [List.mem_cons] at hgb
        rcases hgb with heq | hgb
        · exact Or.inr (heq ▸ List.mem_cons_self _ _)
        · rcases ih gb hgb with heq | hm
          · exact Or.inl heq
          · exact Or.inr (List.mem_cons_of_mem _ hm)

/-- Inserting a generation above every existing one appends at the end. -/
theorem finsert_append_of_gt {fs : List (Nat × List Nat)} {g : Nat}
    (h : ∀ gb ∈ fs, gb.1 < g) (b : List Nat) : finsert fs g b = fs ++ [(g, b)] := by
  induction fs with
  | nil => rfl
  | cons gb0 rest ih =>
    obtain ⟨g0, b0⟩ := gb0
    have h0 : g0 < g := h (g0, b0) (List.mem_cons_self _ _)
    simp only [finsert, if_neg (by omega : ¬g = g0), if_neg (by omega : ¬g < g0),
      List.cons_append, List.cons.injEq, true_and]
    exact ih (fun gb hgb => h gb (List.mem_cons_of_mem _ hgb))

/-! ## Slice and record lemmas -/

theorem slice_length {l : List Nat} {pos n : Nat} (h : pos + n ≤ l.length) :
    (slice l pos n).length = n := by
  simp only [slice, List.length_take, List.length_drop]
  omega

theorem slice_append_left {l t : List Nat} {pos n : Nat} (h : pos + n ≤ l.length) :
    slice (l ++ t) pos n = slice l pos n := by
  apply List.ext_getElem
  · simp only [slice, List.length_take, List.length_drop, List.length_append]
    omega
  · intro i h1 h2
    simp only [slice, List.getElem_take, List.getElem_drop, List.getElem_append]
    simp only [slice, List.length_take, List.length_drop] at h1 h2
    rw [dif_pos (by omega)]

theorem slice_append_self (l t : List Nat) : slice (l ++ t) l.length t.length = t := by
  rw [slice, List.drop_left]
  exact List.take_length t

theorem slice_take {l : List Nat} {pos a n : Nat} (h : a ≤ n) :
    slice l pos a = (slice l pos n).take a := by
  simp only [slice, List.take_take]
  rw [Nat.min_eq_left h]

/-- A sub-extent of a known slice. -/
theorem slice_sub {l R : List Nat} {pos n : Nat} (hR : slice l pos n = R)
    {a m : Nat} (h : a + m ≤ n) : slice l (pos + a) m = (R.drop a).take m := by
  subst hR
  simp only [slice, List.drop_take, List.drop_drop, List.take_take]
  congr 1
  omega

theorem crcUpdate_lt {c : Nat} (b : Nat) (h : c < 2 ^ 32) : crcUpdate c b < 2 ^ 32 := by
  unfold crcUpdate
  apply Nat.xor_lt_two_pow
  · calc c >>> 8 ≤ c := by
          rw [Nat.shiftRight_eq_div_pow]
          exact Nat.div_le_self c (2 ^ 8)
      _ < 2 ^ 32 := h
  · exact crcTable_lt (lt_trans (Nat.mod_lt _ (by norm_num)) (by norm_num))

theorem crc32_lt (data : List Nat) : crc32 data < 2 ^ 32 := by
  unfold crc32
  apply Nat.xor_lt_two_pow
  · have : ∀ (bs : List Nat) (c : Nat), c < 2 ^ 32 → bs.foldl crcUpdate c < 2 ^ 32 := by
      intro bs
      induction bs with
      | nil => intro c hc; simpa using hc
      | cons x xs ih =>
        intro c hc
        rw [List.foldl_cons]
        exact ih _ (crcUpdate_lt x hc)
    exact this data 0xFFFFFFFF (by norm_num)
  · norm_num

theorem mkRecord_take4 (p : List Nat) : (mkRecord p).take 4 = u32le (crc32 p) := by
  rw [mkRecord, List.append_assoc]
  rw [show (4 : Nat) = (u32le (crc32 p)).length from rfl]
  exact List.take_left ..

theorem mkRecord_drop4_take8 (p : List Nat) :
    ((mkRecord p).drop 4).take 8 = u64le p.length := by
  rw [mkRecord, List.append_assoc]
  rw [show (4 : Nat) = (u32le (crc32 p)).length from rfl, List.drop_left]
  rw [show (8 : Nat) = (u64le p.length).length from rfl]
  exact List.take_left ..

theorem mkRecord_drop12 (p : List Nat) : (mkRecord p).drop 12 = p := by
  rw [mkRecord]
  rw [show (12 : Nat) = (u32le (crc32 p) ++ u64le p.length).length from rfl]
  exact List.drop_left ..

theorem mkRecord_bytes_lt {p : List Nat} (hp : ∀ b ∈ p, b < 256) :
    ∀ b ∈ mkRecord p, b < 256 := by
  intro b hb
  simp only [mkRecord, List.mem_append] at hb
  rcases hb with (hb | hb) | hb
  · exact u32le_bytes_lt _ b hb
  · exact u64le_bytes_lt _ b hb
  · exact hp b hb

/-- Reading at a position whose extent is exactly a record recovers the
record's CRC field and payload. -/
theorem readData_of_slice {file payload : List Nat} {pos : Nat}
    (hle : pos + (12 + payload.length) ≤ file.length)
    (hslice : slice file pos (12 + payload.length) = mkRecord payload)
    (hlen : payload.length < 2 ^ 64) :
    readData file pos = .ok (crc32 payload, payload) := by
  have hcrcslice : slice file pos 4 = u32le (crc32 payload) := by
    rw [slice_take (by omega : 4 ≤ 12 + payload.length), hslice, mkRecord_take4]
  have hlenslice : slice file (pos + 4) 8 = u64le payload.length := by
    rw [slice_sub hslice (by omega : 4 + 8 ≤ 12 + payload.length), mkRecord_drop4_take8]
  have hpayslice : slice file (pos + 12) payload.length = payload := by
    rw [slice_sub hslice (le_refl (12 + payload.length)), mkRecord_drop12]
    exact List.take_length payload
  unfold readData
  rw [hlenslice, leNat_u64le hlen, hcrcslice, leNat_u32le (crc32_lt payload), hpayslice,
    if_pos (by omega), if_pos (by omega)]

theorem flookup_mem {fs : List (Nat × List Nat)} {g : Nat} {b : List Nat}
    (h : flookup fs g = some b) : (g, b) ∈ fs := by
  induction fs with
  | nil => simp [flookup] at h
  | cons gb rest ih =>
    obtain ⟨g0, b0⟩ := gb
    simp only [flookup] at h
    by_cases h0 : g0 = g
    · rw [if_pos h0] at h
      obtain rfl := Option.some_inj.mp h
      simp [h0]
    · rw [if_neg h0] at h
      exact List.mem_cons_of_mem _ (ih h)

theorem finsert_sorted {fs : List (Nat × List Nat)} (g : Nat) (b : List Nat)
    (hs : List.Pairwise (fun x y : Nat × List Nat => x.1 < y.1) fs) :
    List.Pairwise (fun x y : Nat × List Nat => x.1 < y.1) (finsert fs g b) := by
  induction fs with
  | nil => simp [finsert]
  | cons gb0 rest ih =>
    obtain ⟨g0, b0⟩ := gb0
    rw [List.pairwise_cons] at hs
    by_cases h0 : g = g0
    · simp only [finsert, if_pos h0]
      rw [List.pairwise_cons]
      subst h0
      exact hs
    · simp only [finsert, if_neg h0]
      by_cases h1 : g < g0
      · rw [if_pos h1, List.pairwise_cons, List.pairwise_cons]
        exact ⟨fun y hy => by
          rcases List.mem_cons.mp hy with rfl | hy
          · exact h1
          · exact lt_trans h1 (hs.1 y hy), hs⟩
      · rw [if_neg h1, List.pairwise_cons]
        refine ⟨fun y hy => ?_, ih hs.2⟩
        rcases mem_finsert y hy with rfl | hy
        · omega
        · exact hs.1 y hy

theorem keys_nodup_of_sorted {fs : List (Nat × List Nat)}
    (hs : List.Pairwise (fun x y : Nat × List Nat => x.1 < y.1) fs) :
    (fs.map Prod.fst).Nodup := by
  have h2 : (fs.map Prod.fst).Pairwise (fun a b : Nat => a < b) :=
    List.pairwise_map.mpr hs
  exact h2.imp Nat.ne_of_lt

/-! ## Store invariants -/

/-- A wellformed index entry (§3 index invariant): it points into an existing
file, at an extent that is exactly a record whose payload deserializes to a
`Set` whose key is the entry's key. -/
def EntryOk (st : Store) (k : String) (p : CommandPos) : Prop :=
  ∃ file, flookup st.files p.fileNum = some file ∧
    p.pos + p.len ≤ file.length ∧
    ∃ payload v, p.len = 12 + payload.length ∧
      payload.length < 2 ^ 64 ∧
      slice file p.pos p.len = mkRecord payload ∧
      deserialize payload = some (.set k v)

/-- The reachable-state invariant of the store. -/
structure GoodStore (st : Store) : Prop where
  entries : ∀ kp ∈ st.map, EntryOk st kp.1 kp.2
  active : (flookup st.files st.curGen).isSome
  entryGens : ∀ kp ∈ st.map, kp.2.fileNum ≤ st.curGen
  fileGens : ∀ gb ∈ st.files, gb.1 ≤ st.curGen
  bytesLt : ∀ gb ∈ st.files, ∀ b ∈ gb.2, b < 256
  mapNodup : (st.map.map Prod.fst).Nodup
  filesSorted : List.Pairwise (fun x y : Nat × List Nat => x.1 < y.1) st.files

/-- `get` on a key whose entry satisfies the index invariant returns the
value of the `Set` command stored at the entry's extent. -/
theorem get_of_entry {st : Store} {k k' : String} {p : CommandPos}
    {file payload : List Nat} {v : String}
    (hlook : alookup st.map k = some p)
    (hfile : flookup st.files p.fileNum = some file)
    (hle : p.pos + p.len ≤ file.length)
    (hplen : p.len = 12 + payload.length)
    (hlen64 : payload.length < 2 ^ 64)
    (hslice : slice file p.pos p.len = mkRecord payload)
    (hdes : deserialize payload = some (.set k' v)) :
    get st k = .ok (some v) := by
  have hread : readData file p.pos = .ok (crc32 payload, payload) := by
    rw [hplen] at hle hslice
    exact readData_of_slice hle hslice hlen64
  simp only [get, hlook, hfile, hread]
  rw [if_neg (fun hne => hne rfl), hdes]

theorem get_none_of_lookup_none {st : Store} {k : String}
    (hlook : alookup st.map k = none) : get st k = .ok none := by
  simp only [get, hlook]

/-- Existential form, convenient for preservation proofs. -/
theorem get_some_of_good {st : Store} {k : String} {p : CommandPos}
    (hg : GoodStore st) (hlook : alookup st.map k = some p) :
    ∃ v, get st k = .ok (some v) := by
  obtain ⟨file, hfile, hle, payload, v, hplen, hlen64, hslice, hdes⟩ :=
    hg.entries (k, p) (mem_of_alookup_eq_some hlook)
  exact ⟨v, get_of_entry hlook hfile hle hplen hlen64 hslice hdes⟩

/-! ## `write_data` preservation -/

theorem writeData_map (st : Store) (cmd : Command) : (writeData st cmd).1.map = st.map := rfl

theorem writeData_curGen (st : Store) (cmd : Command) :
    (writeData st cmd).1.curGen = st.curGen := rfl

theorem writeData_uncompacted (st : Store) (cmd : Command) :
    (writeData st cmd).1.uncompacted = st.uncompacted := rfl

theorem writeData_deleted (st : Store) (cmd : Command) :
    (writeData st cmd).1.deleted = st.deleted := rfl

theorem writeData_files_ne (st : Store) (cmd : Command) {g : Nat} (h : g ≠ st.curGen) :
    flookup (writeData st cmd).1.files g = flookup st.files g :=
  flookup_finsert_ne st.files _ h

theorem writeData_files_self {st : Store} {act : List Nat} (cmd : Command)
    (hact : flookup st.files st.curGen = some act) :
    flookup (writeData st cmd).1.files st.curGen =
      some (act ++ mkRecord (serialize cmd)) := by
  simp only [writeData, hact, Option.getD_some]
  exact flookup_finsert_self ..

theorem writeData_pos {st : Store} {act : List Nat}
    (cmd : Command) (hact : flookup st.files st.curGen = some act) :
    (writeData st cmd).2 =
      { fileNum := st.curGen, pos := act.length, len := 4 + 8 + (serialize cmd).length } := by
  simp only [writeData, hact, Option.getD_some]

/-- Appending a record to the active file preserves every wellformed entry. -/
theorem entryOk_writeData {st : Store} {k : String} {p : CommandPos} (cmd : Command)
    (hE : EntryOk st k p) : EntryOk (writeData st cmd).1 k p := by
  obtain ⟨file, hfile, hle, payload, v, hplen, hlen64, hslice, hdes⟩ := hE
  by_cases hg : p.fileNum = st.curGen
  · refine ⟨file ++ mkRecord (serialize cmd), ?_, ?_, payload, v, hplen, hlen64, ?_, hdes⟩
    · rw [hg]
      exact writeData_files_self cmd (hg ▸ hfile)
    · simp only [List.length_append]
      omega
    · rw [slice_append_left hle, hslice]
  · exact ⟨file, (writeData_files_ne st cmd hg).symm ▸ hfile, hle, payload, v,
      hplen, hlen64, hslice, hdes⟩

/-- `get` is unchanged by appending a record (the index is untouched and no
existing extent moves). -/
theorem get_writeData (st : Store) (cmd : Command) (hg : GoodStore st) (k : String) :
    get (writeData st cmd).1 k = get st k := by
  cases hlook : alookup st.map k with
  | none =>
    have hlook2 : alookup (writeData st cmd).1.map k = none := by
      rw [writeData_map]
      exact hlook
    rw [get_none_of_lookup_none hlook, get_none_of_lookup_none hlook2]
  | some p =>
    obtain ⟨file, hfile, hle, payload, v, hplen, hlen64, hslice, hdes⟩ :=
      hg.entries (k, p) (mem_of_alookup_eq_some hlook)
    rw [get_of_entry hlook hfile hle hplen hlen64 hslice hdes]
    have hlook' : alookup (writeData st cmd).1.map k = some p := by
      rw [writeData_map]
      exact hlook
    by_cases hgen : p.fileNum = st.curGen
    · have hfile' : flookup (writeData st cmd).1.files p.fileNum =
          some (file ++ mkRecord (serialize cmd)) := by
        rw [hgen]
        exact writeData_files_self cmd (hgen ▸ hfile)
      exact (get_of_entry hlook' hfile'
        (by
          simp only [List.length_append]
          have hle2 : p.pos + p.len ≤ file.length := hle
          omega) hplen hlen64
        (by rw [slice_append_left hle, hslice]) hdes).symm ▸ rfl
    · have hfile' : flookup (writeData st cmd).1.files p.fileNum = some file := by
        rw [writeData_files_ne st cmd hgen]
        exact hfile
      exact (get_of_entry hlook' hfile' hle hplen hlen64 hslice hdes).symm ▸ rfl

theorem writeData_files_eq (st : Store) (cmd : Command) :
    (writeData st cmd).1.files =
      finsert st.files st.curGen
        (((flookup st.files st.curGen).getD []) ++ mkRecord (serialize cmd)) := rfl

/-- The entry returned by `write_data` for a `Set` is wellformed in the
post-write store. -/
theorem entryOk_new {st : Store} {act : List Nat} {k v : String}
    (hact : flookup st.files st.curGen = some act)
    (hlen64 : (serialize (.set k v)).length < 2 ^ 64) :
    EntryOk (writeData st (.set k v)).1 k (writeData st (.set k v)).2 := by
  rw [writeData_pos (.set k v) hact]
  refine ⟨act ++ mkRecord (serialize (.set k v)), writeData_files_self _ hact, ?_,
    serialize (.set k v), v, rfl, hlen64, ?_, deserialize_serialize (.set k v)⟩
  · simp only [List.length_append, mkRecord_length]
    omega
  · have h1 : (4 + 8 + (serialize (Command.set k v)).length) =
        (mkRecord (serialize (Command.set k v))).length := by
      rw [mkRecord_length]
    rw [h1, slice_append_self]

theorem goodStore_writeData (st : Store) (cmd : Command) (hg : GoodStore st) :
    GoodStore (writeData st cmd).1 := by
  obtain ⟨act, hact⟩ := Option.isSome_iff_exists.mp hg.active
  refine ⟨?_, ?_, ?_, ?_, ?_, ?_, ?_⟩
  · intro kp hm
    exact entryOk_writeData cmd (hg.entries kp (by rwa [writeData_map] at hm))
  · rw [writeData_curGen, writeData_files_self cmd hact]
    rfl
  · intro kp hm
    rw [writeData_curGen]
    exact hg.entryGens kp (by rwa [writeData_map] at hm)
  · intro gb hm
    rw [writeData_curGen]
    rw [writeData_files_eq] at hm
    rcases mem_finsert gb hm with heq | hm2
    · rw [heq]
    · exact hg.fileGens gb hm2
  · intro gb hm
    rw [writeData_files_eq, hact, Option.getD_some] at hm
    rcases mem_finsert gb hm with heq | hm2
    · subst heq
      intro b hb
      simp only [List.mem_append] at hb
      rcases hb with hb | hb
      · exact hg.bytesLt (st.curGen, act) (flookup_mem hact) b hb
      · exact mkRecord_bytes_lt (serialize_bytes_lt cmd) b hb
    · exact hg.bytesLt gb hm2
  · rw [writeData_map]
    exact hg.mapNodup
  · rw [writeData_files_eq]
    exact finsert_sorted _ _ hg.filesSorted

/-! ## Compaction: the copy loop -/

/-- The bytes the copy loop writes into the compaction file. -/
def copiedBytes (fs : List (Nat × List Nat)) : List (String × CommandPos) → List Nat
  | [] => []
  | (_, p) :: rest =>
    slice ((flookup fs p.fileNum).getD []) p.pos p.len ++ copiedBytes fs rest

/-- The new locations the copy loop records. -/
def newLocs (cg : Nat) : List (String × CommandPos) → Nat → List (String × CommandPos) →
    List (String × CommandPos)
  | [], _, nm => nm
  | (k, p) :: rest, newPos, nm =>
    newLocs cg rest (newPos + p.len) (ainsert nm k { fileNum := cg, pos := newPos, len := p.len })

/-- When every snapshot entry reads back in bounds, the copy loop succeeds and
produces exactly the concatenated copied bytes and the recorded locations. -/
theorem copyEntries_ok (fs : List (Nat × List Nat)) (cg : Nat) :
    ∀ (entries : List (String × CommandPos)) (newPos : Nat) (buf : List Nat)
      (nm : List (String × CommandPos)),
    (∀ kp ∈ entries, ∃ file, flookup fs kp.2.fileNum = some file ∧
      kp.2.pos + kp.2.len ≤ file.length) →
    copyEntries fs cg entries newPos buf nm =
      (buf ++ copiedBytes fs entries, newLocs cg entries newPos nm, none) := by
  intro entries
  induction entries with
  | nil =>
    intro newPos buf nm _
    simp [copyEntries, copiedBytes, newLocs]
  | cons kp rest ih =>
    intro newPos buf nm h
    obtain ⟨k, p⟩ := kp
    obtain ⟨file, hfile, hle⟩ := h (k, p) (List.mem_cons_self _ _)
    simp only [copyEntries, hfile, if_pos hle, copiedBytes, newLocs, hfile,
      Option.getD_some]
    rw [ih _ _ _ (fun kp2 hm => h kp2 (List.mem_cons_of_mem _ hm))]
    rw [List.append_assoc]

/-- Later copy-loop iterations do not touch keys outside their entries. -/
theorem newLocs_lookup_notmem (cg : Nat) :
    ∀ (entries : List (String × CommandPos)) (newPos : Nat)
      (nm : List (String × CommandPos)) (k : String),
    k ∉ entries.map Prod.fst →
    alookup (newLocs cg entries newPos nm) k = alookup nm k := by
  intro entries
  induction entries with
  | nil => intro _ _ _ _; rfl
  | cons kp rest ih =>
    intro newPos nm k hk
    obtain ⟨k0, p0⟩ := kp
    simp only [List.map_cons, List.mem_cons, not_or] at hk
    simp only [newLocs]
    rw [ih _ _ k hk.2, alookup_ainsert_ne _ _ hk.1]

/-- What the copy loop guarantees about each snapshot entry: the new location
points at a byte-identical copy of the entry's extent inside the copied bytes. -/
theorem copy_preserves (fs : List (Nat × List Nat)) (cg : Nat) :
    ∀ (entries : List (String × CommandPos)) (buf : List Nat)
      (nm : List (String × CommandPos)),
    (∀ kp ∈ entries, ∃ file, flookup fs kp.2.fileNum = some file ∧
      kp.2.pos + kp.2.len ≤ file.length) →
    (entries.map Prod.fst).Nodup →
    ∀ k p, (k, p) ∈ entries →
      ∃ np, alookup (newLocs cg entries buf.length nm) k = some np ∧
        np.fileNum = cg ∧ np.len = p.len ∧
        np.pos + np.len ≤ (buf ++ copiedBytes fs entries).length ∧
        slice (buf ++ copiedBytes fs entries) np.pos np.len =
          slice ((flookup fs p.fileNum).getD []) p.pos p.len := by
  intro entries
  induction entries with
  | nil =>
    intro _ _ _ _ k p hm
    simp at hm
  | cons kp0 rest ih =>
    intro buf nm hwf hnd k p hm
    obtain ⟨k0, p0⟩ := kp0
    obtain ⟨file0, hfile0, hle0⟩ := hwf (k0, p0) (List.mem_cons_self _ _)
    have hslice0len : (slice file0 p0.pos p0.len).length = p0.len := slice_length hle0
    simp only [List.map_cons, List.nodup_cons] at hnd
    simp only [copiedBytes, hfile0, Option.getD_some, newLocs]
    rcases List.mem_cons.mp hm with heq | hmem
    · obtain ⟨rfl, rfl⟩ := Prod.mk.injEq .. ▸ heq
      refine ⟨{ fileNum := cg, pos := buf.length, len := p.len },
        ?_, rfl, rfl, ?_, ?_⟩
      · rw [newLocs_lookup_notmem cg rest _ _ k hnd.1]
        exact alookup_ainsert_self ..
      · simp only [List.length_append]
        omega
      · rw [hfile0, Option.getD_some, ← List.append_assoc]
        have hlen2 : p.len = (buf ++ slice file0 p.pos p.len).length - buf.length := by
          simp only [List.length_append]
          omega
        rw [slice_append_left (l := buf ++ slice file0 p.pos p.len)
          (by simp only [List.length_append]; omega)]
        conv_lhs => rw [show buf.length = buf.length from rfl]
        have := slice_append_self buf (slice file0 p.pos p.len)
        rw [hslice0len] at this
        exact this
    · have hbuf2 : (buf ++ slice file0 p0.pos p0.len).length = buf.length + p0.len := by
        simp only [List.length_append, hslice0len]
      obtain ⟨np, hnp, hfn, hlen, hbound, hsl⟩ :=
        ih (buf ++ slice file0 p0.pos p0.len)
          (ainsert nm k0 { fileNum := cg, pos := buf.length, len := p0.len })
          (fun kp2 hm2 => hwf kp2 (List.mem_cons_of_mem _ hm2)) hnd.2 k p hmem
      rw [hbuf2] at hnp
      refine ⟨np, hnp, hfn, hlen, ?_, ?_⟩
      · rw [List.append_assoc] at hbound
        exact hbound
      · rw [List.append_assoc] at hsl
        exact hsl

/-! ## Compaction: file layout and index merge -/

/-- `finsert` walks past keys smaller than the inserted one. -/
theorem finsert_skip {fs : List (Nat × List Nat)} {g : Nat}
    (h : ∀ gb ∈ fs, gb.1 < g) (tail : List (Nat × List Nat)) (b : List Nat) :
    finsert (fs ++ tail) g b = fs ++ finsert tail g b := by
  induction fs with
  | nil => rfl
  | cons gb0 rest ih =>
    obtain ⟨g0, b0⟩ := gb0
    have h0 : g0 < g := h (g0, b0) (List.mem_cons_self _ _)
    simp only [List.cons_append, finsert, if_neg (by omega : ¬g = g0),
      if_neg (by omega : ¬g < g0), List.cons.injEq, true_and]
    exact ih (fun gb hgb => h gb (List.mem_cons_of_mem _ hgb))

theorem flookup_append_of_some {fs tail : List (Nat × List Nat)} {g : Nat} {b : List Nat}
    (h : flookup fs g = some b) : flookup (fs ++ tail) g = some b := by
  induction fs with
  | nil => simp [flookup] at h
  | cons gb0 rest ih =>
    obtain ⟨g0, b0⟩ := gb0
    simp only [flookup] at h
    simp only [List.cons_append, flookup]
    by_cases h0 : g0 = g
    · rwa [if_pos h0] at h ⊢
    · rw [if_neg h0] at h ⊢
      exact ih h

theorem compactPhase1_files {st : Store} (hg : GoodStore st) :
    (compactPhase1 st).files =
      st.files ++ [(st.curGen + 1, []), (st.curGen + 2, [])] := by
  show finsert (finsert st.files (st.curGen + 2) []) (st.curGen + 1) [] = _
  have h2 : finsert st.files (st.curGen + 2) [] = st.files ++ [(st.curGen + 2, [])] :=
    finsert_append_of_gt (fun gb hm => by have := hg.fileGens gb hm; omega) []
  rw [h2, finsert_skip (fun gb hm => by have := hg.fileGens gb hm; omega)]
  congr 1
  simp only [finsert]
  rw [if_neg (by omega), if_pos (by omega)]

theorem files2_eq {st : Store} (hg : GoodStore st) (buf : List Nat) :
    finsert (compactPhase1 st).files (st.curGen + 1) buf =
      st.files ++ [(st.curGen + 1, buf), (st.curGen + 2, [])] := by
  rw [compactPhase1_files hg,
    finsert_skip (fun gb hm => by have := hg.fileGens gb hm; omega)]
  congr 1
  simp [finsert]

theorem staleGens_files2 {st : Store} (hg : GoodStore st) (buf : List Nat) :
    staleGens (st.files ++ [(st.curGen + 1, buf), (st.curGen + 2, [])])
      (st.curGen + 1) = st.files.map Prod.fst := by
  unfold staleGens
  rw [List.map_append, List.filter_append]
  have h1 : List.filter (fun g => decide (g < st.curGen + 1))
      (List.map Prod.fst [(st.curGen + 1, buf), (st.curGen + 2, [])]) = [] := by
    apply List.filter_eq_nil.mpr
    intro g hm
    simp only [List.map_cons, List.map_nil, List.mem_cons, List.not_mem_nil,
      or_false] at hm
    rcases hm with rfl | rfl <;> simp only [decide_eq_true_eq] <;> omega
  have h2 : List.filter (fun g => decide (g < st.curGen + 1))
      (st.files.map Prod.fst) = st.files.map Prod.fst := by
    apply List.filter_eq_self.mpr
    intro g hm
    rw [List.mem_map] at hm
    obtain ⟨gb, hgb, rfl⟩ := hm
    have := hg.fileGens gb hgb
    simp only [decide_eq_true_eq]
    omega
  rw [h1, h2, List.append_nil]

theorem filter_files2 {st : Store} (hg : GoodStore st) (buf : List Nat) :
    (st.files ++ [(st.curGen + 1, buf), (st.curGen + 2, [])]).filter
        (fun p => decide (st.curGen + 1 ≤ p.1)) =
      [(st.curGen + 1, buf), (st.curGen + 2, [])] := by
  rw [List.filter_append]
  have h1 : st.files.filter (fun p => decide (st.curGen + 1 ≤ p.1)) = [] := by
    apply List.filter_eq_nil.mpr
    intro gb hm
    have := hg.fileGens gb hm
    simp only [decide_eq_true_eq]
    omega
  have h2 : List.filter (fun p => decide (st.curGen + 1 ≤ p.1))
      [(st.curGen + 1, buf), (st.curGen + 2, [])] =
      [(st.curGen + 1, buf), (st.curGen + 2, [])] := by
    apply List.filter_eq_self.mpr
    intro gb hm
    simp only [List.mem_cons, List.not_mem_nil, or_false] at hm
    rcases hm with rfl | rfl <;> simp only [decide_eq_true_eq] <;> omega
  rw [h1, h2, List.nil_append]

/-- The index after the merge loop, keywise. -/
theorem mergeMap_lookup (cg : Nat) :
    ∀ (nm m : List (String × CommandPos)) (k : String),
    (nm.map Prod.fst).Nodup →
    alookup (mergeMap m nm cg) k =
      match alookup nm k with
      | none => alookup m k
      | some np =>
        match alookup m k with
        | none => none
        | some cur => if cur.fileNum < cg then some np else some cur := by
  intro nm
  induction nm with
  | nil =>
    intro m k _
    rfl
  | cons kv rest ih =>
    intro m k hnd
    obtain ⟨k0, np0⟩ := kv
    simp only [List.map_cons, List.nodup_cons] at hnd
    have hstep : mergeMap m ((k0, np0) :: rest) cg =
        mergeMap (match alookup m k0 with
          | some cur => if cur.fileNum < cg then ainsert m k0 np0 else m
          | none => m) rest cg := by
      rfl
    have hM1look : alookup (match alookup m k0 with
        | some cur => if cur.fileNum < cg then ainsert m k0 np0 else m
        | none => m) k0 =
        (match alookup m k0 with
          | none => none
          | some cur => if cur.fileNum < cg then some np0 else some cur) := by
      cases hm : alookup m k0 with
      | none => exact hm
      | some cur =>
        show alookup (if cur.fileNum < cg then ainsert m k0 np0 else m) k0 =
          if cur.fileNum < cg then some np0 else some cur
        by_cases hcg : cur.fileNum < cg
        · rw [if_pos hcg, if_pos hcg]
          exact alookup_ainsert_self ..
        · rw [if_neg hcg, if_neg hcg]
          exact hm
    have hM1ne : k ≠ k0 → alookup (match alookup m k0 with
        | some cur => if cur.fileNum < cg then ainsert m k0 np0 else m
        | none => m) k = alookup m k := by
      intro hk
      cases hm : alookup m k0 with
      | none => rfl
      | some cur =>
        show alookup (if cur.fileNum < cg then ainsert m k0 np0 else m) k = alookup m k
        by_cases hcg : cur.fileNum < cg
        · rw [if_pos hcg]
          exact alookup_ainsert_ne _ _ hk
        · rw [if_neg hcg]
    rw [hstep, ih _ k hnd.2]
    by_cases hk : k = k0
    · have hrest : alookup rest k = none := by
        rw [hk]
        exact alookup_eq_none_of_not_mem hnd.1
      rw [hrest]
      have hhead : alookup ((k0, np0) :: rest) k = some np0 := by
        simp only [alookup]
        rw [if_pos hk.symm]
      rw [hhead, hk]
      exact hM1look
    · have hhead : alookup ((k0, np0) :: rest) k = alookup rest k := by
        simp only [alookup]
        rw [if_neg (fun he => hk he.symm)]
      rw [hhead, hM1ne hk]

theorem mergeMap_nodup (cg : Nat) :
    ∀ (nm m : List (String × CommandPos)), (m.map Prod.fst).Nodup →
    ((mergeMap m nm cg).map Prod.fst).Nodup := by
  intro nm
  induction nm with
  | nil => intro m h; exact h
  | cons kv rest ih =>
    intro m h
    obtain ⟨k0, np0⟩ := kv
    show ((mergeMap (match alookup m k0 with
      | some cur => if cur.fileNum < cg then ainsert m k0 np0 else m
      | none => m) rest cg).map Prod.fst).Nodup
    apply ih
    cases alookup m k0 with
    | none => exact h
    | some cur =>
      show ((if cur.fileNum < cg then ainsert m k0 np0 else m).map Prod.fst).Nodup
      by_cases hcg : cur.fileNum < cg
      · rw [if_pos hcg]
        exact ainsert_keys_nodup h
      · rw [if_neg hcg]
        exact h

theorem newLocs_keys_nodup (cg : Nat) :
    ∀ (entries : List (String × CommandPos)) (newPos : Nat)
      (nm : List (String × CommandPos)),
    (nm.map Prod.fst).Nodup → (((newLocs cg entries newPos nm).map Prod.fst)).Nodup := by
  intro entries
  induction entries with
  | nil => intro _ nm h; exact h
  | cons kp rest ih =>
    intro newPos nm h
    obtain ⟨k0, p0⟩ := kp
    exact ih _ _ (ainsert_keys_nodup h)

theorem alookup_isSome_of_mem_keys {β : Type} [DecidableEq β]
    {m : List (β × CommandPos)} {k : β} (h : k ∈ m.map Prod.fst) :
    ∃ p, alookup m k = some p := by
  induction m with
  | nil => simp at h
  | cons kv rest ih =>
    obtain ⟨k0, v0⟩ := kv
    simp only [List.map_cons, List.mem_cons] at h
    by_cases h0 : k0 = k
    · exact ⟨v0, by simp [alookup, h0]⟩
    · rcases h with rfl | h
      · exact absurd rfl h0
      · obtain ⟨p, hp⟩ := ih h
        exact ⟨p, by simp only [alookup, if_neg h0]; exact hp⟩

theorem copiedBytes_lt (fs : List (Nat × List Nat))
    (hfs : ∀ gb ∈ fs, ∀ b ∈ gb.2, b < 256) :
    ∀ (entries : List (String × CommandPos)), ∀ b ∈ copiedBytes fs entries, b < 256 := by
  intro entries
  induction entries with
  | nil => intro b hb; simp [copiedBytes] at hb
  | cons kp rest ih =>
    intro b hb
    obtain ⟨k0, p0⟩ := kp
    simp only [copiedBytes, List.mem_append] at hb
    rcases hb with hb | hb
    · cases hfile : flookup fs p0.fileNum with
      | none => rw [hfile] at hb; simp [slice] at hb
      | some file =>
        rw [hfile] at hb
        simp only [Option.getD_some, slice] at hb
        exact hfs (p0.fileNum, file) (flookup_mem hfile) b
          (List.mem_of_mem_drop (List.mem_of_mem_take hb))
    · exact ih b hb

/-- The bytes the successful copy loop writes. -/
def compactBuf (st : Store) : List Nat := copiedBytes (compactPhase1 st).files st.map

/-- The new locations the successful copy loop records. -/
def compactNewMap (st : Store) : List (String × CommandPos) :=
  newLocs (st.curGen + 1) st.map 0 []

/-- Under the store invariant, every snapshot entry is readable during the
copy loop. -/
theorem copyPre {st : Store} (hg : GoodStore st) :
    ∀ kp ∈ st.map, ∃ file, flookup (compactPhase1 st).files kp.2.fileNum = some file ∧
      kp.2.pos + kp.2.len ≤ file.length := by
  intro kp hm
  obtain ⟨file, hfile, hle, _⟩ := hg.entries kp hm
  refine ⟨file, ?_, hle⟩
  rw [compactPhase1_files hg]
  exact flookup_append_of_some hfile

theorem compactCopyRes_eq {st : Store} (hg : GoodStore st) :
    compactCopyRes st = (compactBuf st, compactNewMap st, none) := by
  unfold compactCopyRes compactBuf compactNewMap
  rw [copyEntries_ok (compactPhase1 st).files (st.curGen + 1) st.map 0 [] [] (copyPre hg)]
  rw [List.nil_append]

/-- The successful run of `compaction`, in closed form. -/
theorem compaction_eq {st : Store} (hg : GoodStore st) :
    compaction st =
      ({ files := [(st.curGen + 1, compactBuf st), (st.curGen + 2, [])]
         curGen := st.curGen + 2
         map := mergeMap st.map (compactNewMap st) (st.curGen + 1)
         uncompacted := 0
         deleted := st.deleted ++ st.files.map Prod.fst }, none) := by
  unfold compaction compactAfterDelete
  rw [compactCopyRes_eq hg]
  simp only [files2_eq hg, filter_files2 hg, staleGens_files2 hg]
  rfl

theorem compactNewMap_nodup (st : Store) : ((compactNewMap st).map Prod.fst).Nodup :=
  newLocs_keys_nodup _ _ _ _ (by simp)

theorem merged_lookup_some {st : Store} (hg : GoodStore st) {k : String} {p : CommandPos}
    (hlook : alookup st.map k = some p) :
    ∃ np, alookup (mergeMap st.map (compactNewMap st) (st.curGen + 1)) k = some np ∧
      np.fileNum = st.curGen + 1 ∧ np.len = p.len ∧
      np.pos + np.len ≤ (compactBuf st).length ∧
      slice (compactBuf st) np.pos np.len =
        slice ((flookup (compactPhase1 st).files p.fileNum).getD []) p.pos p.len := by
  obtain ⟨np, hnp, hfn, hlen, hbound, hsl⟩ :=
    copy_preserves (compactPhase1 st).files (st.curGen + 1) st.map [] []
      (copyPre hg) hg.mapNodup k p (mem_of_alookup_eq_some hlook)
  have hnp' : alookup (compactNewMap st) k = some np := hnp
  have hbound' : np.pos + np.len ≤ (compactBuf st).length := by
    simpa [compactBuf] using hbound
  have hsl' : slice (compactBuf st) np.pos np.len =
      slice ((flookup (compactPhase1 st).files p.fileNum).getD []) p.pos p.len := by
    simpa [compactBuf] using hsl
  refine ⟨np, ?_, hfn, hlen, hbound', hsl'⟩
  rw [mergeMap_lookup (st.curGen + 1) (compactNewMap st) st.map k
    (compactNewMap_nodup st), hnp', hlook]
  have hlt : p.fileNum < st.curGen + 1 := by
    have h2 : p.fileNum ≤ st.curGen := hg.entryGens (k, p) (mem_of_alookup_eq_some hlook)
    omega
  simp [hlt]

theorem merged_lookup_none {st : Store} (hg : GoodStore st) {k : String}
    (hlook : alookup st.map k = none) :
    alookup (mergeMap st.map (compactNewMap st) (st.curGen + 1)) k = none := by
  rw [mergeMap_lookup (st.curGen + 1) (compactNewMap st) st.map k
    (compactNewMap_nodup st)]
  cases hnm : alookup (compactNewMap st) k with
  | none => exact hlook
  | some np =>
    show (match alookup st.map k with
      | none => none
      | some cur => if cur.fileNum < st.curGen + 1 then some np else some cur) = none
    rw [hlook]

/-- `get` returns the same result for every key after `compaction`. -/
theorem compaction_get {st : Store} (hg : GoodStore st) (k : String) :
    get (compaction st).1 k = get st k := by
  rw [compaction_eq hg]
  cases hlook : alookup st.map k with
  | none =>
    rw [get_none_of_lookup_none hlook]
    exact get_none_of_lookup_none (merged_lookup_none hg hlook)
  | some p =>
    obtain ⟨file, hfile, hle, payload, v, hplen, hlen64, hslice, hdes⟩ :=
      hg.entries (k, p) (mem_of_alookup_eq_some hlook)
    obtain ⟨np, hnp, hfn, hlenp, hbound, hsl⟩ := merged_lookup_some hg hlook
    have hfile1 : flookup (compactPhase1 st).files p.fileNum = some file := by
      rw [compactPhase1_files hg]
      exact flookup_append_of_some hfile
    rw [hfile1, Option.getD_some] at hsl
    have hfile' : flookup [(st.curGen + 1, compactBuf st), (st.curGen + 2, [])]
        np.fileNum = some (compactBuf st) := by
      rw [hfn]
      simp [flookup]
    refine (get_of_entry hnp hfile' hbound (by rw [hlenp, hplen]) hlen64
      (hsl.trans hslice) hdes).trans ?_
    exact (get_of_entry hlook hfile hle hplen hlen64 hslice hdes).symm

theorem compaction_lookup_none {st : Store} (hg : GoodStore st) (k : String) :
    alookup (compaction st).1.map k = none ↔ alookup st.map k = none := by
  rw [compaction_eq hg]
  constructor
  · intro h
    cases hlook : alookup st.map k with
    | none => rfl
    | some p =>
      obtain ⟨np, hnp, _⟩ := merged_lookup_some hg hlook
      have h2 : alookup (mergeMap st.map (compactNewMap st) (st.curGen + 1)) k = none := h
      rw [hnp] at h2
      cases h2
  · intro h
    exact merged_lookup_none hg h

/-- `compaction` preserves the store invariant. -/
theorem compaction_good {st : Store} (hg : GoodStore st) : GoodStore (compaction st).1 := by
  rw [compaction_eq hg]
  have hmergedNodup : ((mergeMap st.map (compactNewMap st)
      (st.curGen + 1)).map Prod.fst).Nodup :=
    mergeMap_nodup _ _ _ hg.mapNodup
  have hp1bytes : ∀ gb ∈ (compactPhase1 st).files, ∀ b ∈ gb.2, b < 256 := by
    rw [compactPhase1_files hg]
    intro gb hm
    rcases List.mem_append.mp hm with hm | hm
    · exact hg.bytesLt gb hm
    · simp only [List.mem_cons, List.not_mem_nil, or_false] at hm
      rcases hm with rfl | rfl <;> simp
  refine ⟨?_, ?_, ?_, ?_, ?_, hmergedNodup, ?_⟩
  · intro kp hm
    have hlookm : alookup (mergeMap st.map (compactNewMap st) (st.curGen + 1)) kp.1 =
        some kp.2 := alookup_eq_some_of_mem hmergedNodup hm
    cases hlook : alookup st.map kp.1 with
    | none =>
      rw [merged_lookup_none hg hlook] at hlookm
      cases hlookm
    | some p =>
      obtain ⟨file, hfile, hle, payload, v, hplen, hlen64, hslice, hdes⟩ :=
        hg.entries (kp.1, p) (mem_of_alookup_eq_some hlook)
      obtain ⟨np, hnp, hfn, hlenp, hbound, hsl⟩ := merged_lookup_some hg hlook
      have hkp2 : kp.2 = np := by
        rw [hnp] at hlookm
        exact Option.some_inj.mp hlookm.symm
      have hfile1 : flookup (compactPhase1 st).files p.fileNum = some file := by
        rw [compactPhase1_files hg]
        exact flookup_append_of_some hfile
      rw [hfile1, Option.getD_some] at hsl
      rw [hkp2]
      refine ⟨compactBuf st, ?_, hbound, payload, v, by rw [hlenp, hplen], hlen64,
        hsl.trans hslice, hdes⟩
      rw [hfn]
      simp [flookup]
  · show (flookup [(st.curGen + 1, compactBuf st), (st.curGen + 2, [])]
      (st.curGen + 2)).isSome
    simp only [flookup]
    rw [if_neg (by omega)]
    rfl
  · intro kp hm
    have hlookm : alookup (mergeMap st.map (compactNewMap st) (st.curGen + 1)) kp.1 =
        some kp.2 := alookup_eq_some_of_mem hmergedNodup hm
    cases hlook : alookup st.map kp.1 with
    | none =>
      rw [merged_lookup_none hg hlook] at hlookm
      cases hlookm
    | some p =>
      obtain ⟨np, hnp, hfn, _⟩ := merged_lookup_some hg hlook
      have hkp2 : kp.2 = np := by
        rw [hnp] at hlookm
        exact Option.some_inj.mp hlookm.symm
      rw [hkp2, hfn]
      show st.curGen + 1 ≤ st.curGen + 2
      omega
  · intro gb hm
    simp only [List.mem_cons, List.not_mem_nil, or_false] at hm
    rcases hm with rfl | rfl
    · show st.curGen + 1 ≤ st.curGen + 2
      omega
    · show st.curGen + 2 ≤ st.curGen + 2
      omega
  · intro gb hm
    simp only [List.mem_cons, List.not_mem_nil, or_false] at hm
    rcases hm with rfl | rfl
    · exact copiedBytes_lt (compactPhase1 st).files hp1bytes st.map
    · simp
  · rw [List.pairwise_cons]
    refine ⟨?_, ?_⟩
    · intro y hy
      simp only [List.mem_cons, List.not_mem_nil, or_false] at hy
      subst hy
      show st.curGen + 1 < st.curGen + 2
      omega
    · rw [List.pairwise_cons]
      exact ⟨fun y hy => absurd hy (List.not_mem_nil y), List.Pairwise.nil⟩

/-! ## `set` and `remove` -/

theorem get_congr {st1 st2 : Store} (k : String)
    (hm : alookup st1.map k = alookup st2.map k) (hf : st1.files = st2.files) :
    get st1 k = get st2 k := by
  unfold get
  rw [hm, hf]

/-- The store after `set`'s index update, before the compaction check. -/
def setMid (st : Store) (k v : String) : Store :=
  { (writeData st (.set k v)).1 with
    map := ainsert (writeData st (.set k v)).1.map k (writeData st (.set k v)).2
    uncompacted := (writeData st (.set k v)).1.uncompacted +
      (match alookup (writeData st (.set k v)).1.map k with
        | some old => old.len
        | none => 0) }

theorem set_unfold (st : Store) (k v : String) :
    set st k v =
      if COMPACTION_THRESHOLD < (setMid st k v).uncompacted then compaction (setMid st k v)
      else (setMid st k v, none) := rfl

/-- The store after `remove`'s index update, before the compaction check
(only meaningful when the key was present). -/
def removeMid (st : Store) (k : String) : Store :=
  { (writeData st (.remove k)).1 with
    map := aerase (writeData st (.remove k)).1.map k
    uncompacted := (writeData st (.remove k)).1.uncompacted +
      (match alookup (writeData st (.remove k)).1.map k with
        | some old => old.len + (writeData st (.remove k)).2.len
        | none => 0) }

theorem remove_unfold (st : Store) (k : String) :
    remove st k =
      if alookup st.map k = none then (st, some .keyNotFound)
      else
        if COMPACTION_THRESHOLD < (removeMid st k).uncompacted then
          compaction (removeMid st k)
        else (removeMid st k, none) := rfl

theorem goodStore_setMid {st : Store} (hg : GoodStore st) {k v : String}
    (hlen64 : (serialize (.set k v)).length < 2 ^ 64) :
    GoodStore (setMid st k v) := by
  obtain ⟨act, hact⟩ := Option.isSome_iff_exists.mp hg.active
  have hwd := goodStore_writeData st (.set k v) hg
  refine ⟨?_, hwd.active, ?_, hwd.fileGens, hwd.bytesLt, ?_, hwd.filesSorted⟩
  · intro kp hm
    rcases mem_ainsert kp hm with heq | hm2
    · have h2 : EntryOk (writeData st (.set k v)).1 k (writeData st (.set k v)).2 :=
        entryOk_new hact hlen64
      rw [heq]
      exact h2
    · exact hwd.entries kp hm2
  · intro kp hm
    rcases mem_ainsert kp hm with heq | hm2
    · rw [heq]
      show (writeData st (.set k v)).2.fileNum ≤ st.curGen
      rw [writeData_pos _ hact]
    · exact hwd.entryGens kp hm2
  · exact ainsert_keys_nodup hwd.mapNodup

theorem setMid_get_self {st : Store} {act : List Nat} {k v : String}
    (hact : flookup st.files st.curGen = some act)
    (hlen64 : (serialize (.set k v)).length < 2 ^ 64) :
    get (setMid st k v) k = .ok (some v) := by
  have hlook : alookup (setMid st k v).map k = some (writeData st (.set k v)).2 :=
    alookup_ainsert_self ..
  rw [writeData_pos _ hact] at hlook
  have hfile : flookup (setMid st k v).files st.curGen =
      some (act ++ mkRecord (serialize (.set k v))) :=
    writeData_files_self _ hact
  refine get_of_entry hlook hfile ?_ rfl hlen64 ?_ (deserialize_serialize (.set k v))
  · show act.length + (4 + 8 + (serialize (.set k v)).length) ≤
      (act ++ mkRecord (serialize (.set k v))).length
    simp only [List.length_append, mkRecord_length]
    omega
  · show slice (act ++ mkRecord (serialize (.set k v))) act.length
        (4 + 8 + (serialize (.set k v)).length) = mkRecord (serialize (.set k v))
    have h1 : (4 + 8 + (serialize (Command.set k v)).length) =
        (mkRecord (serialize (Command.set k v))).length := by
      rw [mkRecord_length]
    rw [h1, slice_append_self]

theorem setMid_get_other {st : Store} (hg : GoodStore st) {k v k' : String}
    (hk : k' ≠ k) : get (setMid st k v) k' = get st k' := by
  have h1 : get (setMid st k v) k' = get (writeData st (.set k v)).1 k' :=
    get_congr k' (alookup_ainsert_ne _ _ hk) rfl
  rw [h1, get_writeData st _ hg k']

theorem setMid_lookup_other {st : Store} {k v k' : String} (hk : k' ≠ k) :
    alookup (setMid st k v).map k' = alookup st.map k' :=
  alookup_ainsert_ne _ _ hk

/-- The full behavior of a `set` under the invariant. -/
theorem set_spec {st : Store} (hg : GoodStore st) {k v : String}
    (hlen64 : (serialize (.set k v)).length < 2 ^ 64) :
    GoodStore (set st k v).1 ∧ (set st k v).2 = none ∧
      get (set st k v).1 k = .ok (some v) ∧
      (∀ k', k' ≠ k → get (set st k v).1 k' = get st k') := by
  obtain ⟨act, hact⟩ := Option.isSome_iff_exists.mp hg.active
  have hgm := goodStore_setMid hg hlen64
  rw [set_unfold]
  by_cases hc : COMPACTION_THRESHOLD < (setMid st k v).uncompacted
  · rw [if_pos hc]
    refine ⟨compaction_good hgm, ?_, ?_, ?_⟩
    · rw [compaction_eq hgm]
    · rw [compaction_get hgm k, setMid_get_self hact hlen64]
    · intro k' hk'
      rw [compaction_get hgm k', setMid_get_other hg hk']
  · rw [if_neg hc]
    exact ⟨hgm, rfl, setMid_get_self hact hlen64,
      fun k' hk' => setMid_get_other hg hk'⟩

theorem goodStore_removeMid {st : Store} (hg : GoodStore st) {k : String} :
    GoodStore (removeMid st k) := by
  have hwd := goodStore_writeData st (.remove k) hg
  refine ⟨?_, hwd.active, ?_, hwd.fileGens, hwd.bytesLt, ?_, hwd.filesSorted⟩
  · intro kp hm
    exact hwd.entries kp (mem_aerase hm)
  · intro kp hm
    exact hwd.entryGens kp (mem_aerase hm)
  · exact aerase_keys_nodup hwd.mapNodup

theorem removeMid_get_self {st : Store} (hg : GoodStore st) (k : String) :
    get (removeMid st k) k = .ok none := by
  apply get_none_of_lookup_none
  apply alookup_aerase_self
  show ((writeData st (.remove k)).1.map.map Prod.fst).Nodup
  rw [writeData_map]
  exact hg.mapNodup

theorem removeMid_get_other {st : Store} (hg : GoodStore st) {k k' : String}
    (hk : k' ≠ k) : get (removeMid st k) k' = get st k' := by
  have h1 : get (removeMid st k) k' = get (writeData st (.remove k)).1 k' :=
    get_congr k' (alookup_aerase_ne _ hk) rfl
  rw [h1, get_writeData st _ hg k']

/-- The full behavior of a `remove` on a present key. -/
theorem remove_spec_present {st : Store} (hg : GoodStore st) {k : String}
    (hp : alookup st.map k ≠ none) :
    GoodStore (remove st k).1 ∧ (remove st k).2 = none ∧
      get (remove st k).1 k = .ok none ∧
      (∀ k', k' ≠ k → get (remove st k).1 k' = get st k') := by
  have hgm := goodStore_removeMid hg (k := k)
  rw [remove_unfold, if_neg hp]
  by_cases hc : COMPACTION_THRESHOLD < (removeMid st k).uncompacted
  · rw [if_pos hc]
    refine ⟨compaction_good hgm, ?_, ?_, ?_⟩
    · rw [compaction_eq hgm]
    · have h2 : alookup (compaction (removeMid st k)).1.map k = none := by
        rw [compaction_lookup_none hgm]
        apply alookup_aerase_self
        show ((writeData st (.remove k)).1.map.map Prod.fst).Nodup
        rw [writeData_map]
        exact hg.mapNodup
      exact get_none_of_lookup_none h2
    · intro k' hk'
      rw [compaction_get hgm k', removeMid_get_other hg hk']
  · rw [if_neg hc]
    exact ⟨hgm, rfl, removeMid_get_self hg k,
      fun k' hk' => removeMid_get_other hg hk'⟩

theorem remove_absent {st : Store} {k : String} (h : alookup st.map k = none) :
    remove st k = (st, some .keyNotFound) := by
  rw [remove_unfold, if_pos h]

theorem removeMid_lookup_other {st : Store} {k k' : String} (hk : k' ≠ k) :
    alookup (removeMid st k).map k' = alookup st.map k' := by
  have h1 : alookup (removeMid st k).map k' =
      alookup (writeData st (.remove k)).1.map k' :=
    alookup_aerase_ne _ hk
  rw [h1, writeData_map]

/-! ## Sequences of operations -/

/-- The payload of a `set` fits the record format's 64-bit length field. -/
def WfOp : Op → Prop
  | .opSet k v => (serialize (.set k v)).length < 2 ^ 64
  | .opRemove _ => True
  | .opCompact => True

instance : ∀ o, Decidable (WfOp o)
  | .opSet _ _ => inferInstanceAs (Decidable (_ < _))
  | .opRemove _ => inferInstanceAs (Decidable True)
  | .opCompact => inferInstanceAs (Decidable True)

theorem applyOp_good {st : Store} (hg : GoodStore st) :
    ∀ o : Op, WfOp o → GoodStore (applyOp st o)
  | .opSet k v, hwf => (set_spec hg hwf).1
  | .opRemove k, _ => by
      by_cases hp : alookup st.map k = none
      · show GoodStore (remove st k).1
        rw [remove_absent hp]
        exact hg
      · exact (remove_spec_present hg hp).1
  | .opCompact, _ => compaction_good hg

theorem applyOp_get {st : Store} (hg : GoodStore st) {o : Op} (hwf : WfOp o)
    {k : String} (ht : ¬ touches k o) : get (applyOp st o) k = get st k := by
  cases o with
  | opSet k' v => exact (set_spec hg hwf).2.2.2 k (fun he => ht he.symm)
  | opRemove k' =>
      by_cases hp : alookup st.map k' = none
      · show get (remove st k').1 k = get st k
        rw [remove_absent hp]
      · exact (remove_spec_present hg hp).2.2.2 k (fun he => ht he.symm)
  | opCompact => exact compaction_get hg k

theorem applyOps_get {st : Store} (hg : GoodStore st) {k : String} {ops : List Op}
    (hops : ∀ o ∈ ops, WfOp o ∧ ¬ touches k o) :
    get (applyOps st ops) k = get st k ∧ GoodStore (applyOps st ops) := by
  induction ops generalizing st with
  | nil => exact ⟨rfl, hg⟩
  | cons o rest ih =>
      have h1 := hops o (List.mem_cons_self ..)
      have h2 := ih (applyOp_good hg o h1.1)
        (fun o' ho' => hops o' (List.mem_cons_of_mem _ ho'))
      exact ⟨h2.1.trans (applyOp_get hg h1.1 h1.2), h2.2⟩

theorem applyOp_absent {st : Store} (hg : GoodStore st) {o : Op} (hwf : WfOp o)
    {k : String} (hns : ∀ v, o ≠ .opSet k v) (habs : alookup st.map k = none) :
    alookup (applyOp st o).map k = none ∧ GoodStore (applyOp st o) := by
  refine ⟨?_, applyOp_good hg o hwf⟩
  cases o with
  | opSet k' v =>
      have hk : k ≠ k' := fun he => hns v (by rw [he])
      show alookup (set st k' v).1.map k = none
      rw [set_unfold]
      by_cases hc : COMPACTION_THRESHOLD < (setMid st k' v).uncompacted
      · rw [if_pos hc, compaction_lookup_none (goodStore_setMid hg hwf),
          setMid_lookup_other hk]
        exact habs
      · rw [if_neg hc]
        show alookup (setMid st k' v).map k = none
        rw [setMid_lookup_other hk]
        exact habs
  | opRemove k' =>
      by_cases hp : alookup st.map k' = none
      · show alookup (remove st k').1.map k = none
        rw [remove_absent hp]
        exact habs
      · by_cases hk : k = k'
        · subst hk
          exact absurd habs hp
        · show alookup (remove st k').1.map k = none
          rw [remove_unfold, if_neg hp]
          by_cases hc : COMPACTION_THRESHOLD < (removeMid st k').uncompacted
          · rw [if_pos hc, compaction_lookup_none (goodStore_removeMid hg),
              removeMid_lookup_other hk]
            exact habs
          · rw [if_neg hc]
            show alookup (removeMid st k').map k = none
            rw [removeMid_lookup_other hk]
            exact habs
  | opCompact =>
      show alookup (compaction st).1.map k = none
      rw [compaction_lookup_none hg]
      exact habs

/-! ## The recovery scan -/

theorem slice_take_of_le {l : List Nat} {t pos n : Nat} (h : pos + n ≤ t) :
    slice (l.take t) pos n = slice l pos n := by
  simp only [slice, List.drop_take, List.take_take]
  congr 1
  omega

theorem scanAux_nil (gen : Nat) : ∀ (f pos : Nat) (s : ScanSt),
    scanAux gen f [] pos s = s
  | 0, _, _ => rfl
  | f + 1, pos, s => by simp [scanAux, readData]

theorem readData_ok_bound {rest : List Nat} {pr : Nat × List Nat}
    (h : readData rest 0 = .ok pr) : 12 + pr.2.length ≤ rest.length := by
  unfold readData at h
  by_cases h1 : 0 + 12 ≤ rest.length
  · rw [if_pos h1] at h
    by_cases h2 : 0 + 12 + leNat (slice rest (0 + 4) 8) ≤ rest.length
    · rw [if_pos h2] at h
      injection h with h3
      rw [← h3]
      show 12 + (slice rest (0 + 12) (leNat (slice rest (0 + 4) 8))).length ≤ _
      rw [slice_length (by omega)]
      omega
    · rw [if_neg h2] at h
      exact absurd h (by simp)
  · rw [if_neg h1] at h
    exact absurd h (by simp)

theorem scanAux_fuel (gen : Nat) :
    ∀ (f g : Nat) (rest : List Nat) (pos : Nat) (s : ScanSt),
    rest.length ≤ f → rest.length ≤ g →
    scanAux gen f rest pos s = scanAux gen g rest pos s := by
  intro f
  induction f with
  | zero =>
    intro g rest pos s hf _
    have hnil : rest = [] := List.eq_nil_of_length_eq_zero (by omega)
    subst hnil
    rw [scanAux_nil, scanAux_nil]
  | succ n ih =>
    intro g rest pos s hf hg
    cases g with
    | zero =>
      have hnil : rest = [] := List.eq_nil_of_length_eq_zero (by omega)
      subst hnil
      rw [scanAux_nil, scanAux_nil]
    | succ m =>
      cases hr : readData rest 0 with
      | error e => simp only [scanAux, hr]
      | ok pr =>
        obtain ⟨c, buf⟩ := pr
        have hb := readData_ok_bound hr
        simp only [scanAux, hr]
        by_cases hcrc : crc32 buf ≠ c
        · rw [if_pos hcrc, if_pos hcrc]
        · rw [if_neg hcrc, if_neg hcrc]
          cases hd : deserialize buf with
          | none => rfl
          | some cmd =>
            apply ih
            · simp only [List.length_drop]
              omega
            · simp only [List.length_drop]
              omega

theorem readData_truncated {p : List Nat} {t : Nat} (hlen64 : p.length < 2 ^ 64)
    (ht : t < 12 + p.length) : readData ((mkRecord p).take t) 0 = .error .eof := by
  have hlen' : ((mkRecord p).take t).length = t := by
    simp only [List.length_take, mkRecord_length]
    omega
  by_cases h12 : 12 ≤ t
  · have hslice : slice ((mkRecord p).take t) (0 + 4) 8 = u64le p.length := by
      rw [slice_take_of_le (by omega : 0 + 4 + 8 ≤ t)]
      exact mkRecord_drop4_take8 p
    unfold readData
    rw [hlen', if_pos (by omega), hslice, leNat_u64le hlen64, if_neg (by omega)]
  · unfold readData
    rw [hlen', if_neg (by omega)]

theorem scanAux_truncated (gen fuel : Nat) {p : List Nat} {t : Nat}
    (hlen64 : p.length < 2 ^ 64) (ht : t < 12 + p.length) (pos : Nat) (s : ScanSt) :
    scanAux gen fuel ((mkRecord p).take t) pos s = s := by
  cases fuel with
  | zero => rfl
  | succ n => simp only [scanAux, readData_truncated hlen64 ht]

/-- One complete, CRC-valid, deserializable record at the head of the scan. -/
theorem scanAux_cons (gen : Nat) {p : List Nat} {cmd : Command}
    (hlen64 : p.length < 2 ^ 64) (hdes : deserialize p = some cmd)
    (rest : List Nat) (pos : Nat) (s : ScanSt) :
    scanAux gen (mkRecord p ++ rest).length (mkRecord p ++ rest) pos s =
      scanAux gen rest.length rest (pos + (12 + p.length))
        (replayStep gen s cmd pos (12 + p.length)) := by
  have hfull : (mkRecord p ++ rest).length = (12 + p.length + rest.length - 1) + 1 := by
    simp only [List.length_append, mkRecord_length]
    omega
  have hrd : readData (mkRecord p ++ rest) 0 = .ok (crc32 p, p) := by
    apply readData_of_slice
    · simp only [List.length_append, mkRecord_length]
      omega
    · show slice (mkRecord p ++ rest) 0 (12 + p.length) = mkRecord p
      rw [← mkRecord_length]
      exact List.take_left ..
    · exact hlen64
  have hdrop : (mkRecord p ++ rest).drop (12 + p.length) = rest := by
    rw [← mkRecord_length]
    exact List.drop_left ..
  rw [hfull]
  simp only [scanAux, hrd]
  rw [if_neg (fun h => h rfl), hdes]
  rw [hdrop]
  exact scanAux_fuel gen (12 + p.length + rest.length - 1) rest.length rest
    (pos + (12 + p.length)) (replayStep gen s cmd pos (12 + p.length))
    (by omega) (le_refl _)

/-- The byte image of a command list as consecutive records. -/
def encodeRecs (cmds : List Command) : List Nat :=
  cmds.flatMap (fun c => mkRecord (serialize c))

/-- The replay of a command list from a given offset. -/
def replayRecs (gen : Nat) : List Command → Nat → ScanSt → ScanSt
  | [], _, s => s
  | c :: rest, pos, s =>
    replayRecs gen rest (pos + (12 + (serialize c).length))
      (replayStep gen s c pos (12 + (serialize c).length))

theorem scanAux_encodeRecs (gen : Nat) (tail : List Nat) :
    ∀ (cmds : List Command), (∀ c ∈ cmds, (serialize c).length < 2 ^ 64) →
    ∀ (pos : Nat) (s : ScanSt),
    scanAux gen (encodeRecs cmds ++ tail).length (encodeRecs cmds ++ tail) pos s =
      scanAux gen tail.length tail (pos + (encodeRecs cmds).length)
        (replayRecs gen cmds pos s) := by
  intro cmds
  induction cmds with
  | nil =>
    intro _ pos s
    simp [encodeRecs, replayRecs]
  | cons c cs ih =>
    intro hwf pos s
    have h1 : encodeRecs (c :: cs) ++ tail =
        mkRecord (serialize c) ++ (encodeRecs cs ++ tail) := by
      simp [encodeRecs, List.flatMap_cons, List.append_assoc]
    rw [h1, scanAux_cons gen (hwf c (List.mem_cons_self ..))
      (deserialize_serialize c) (encodeRecs cs ++ tail) pos s]
    rw [ih (fun c' hc' => hwf c' (List.mem_cons_of_mem _ hc')) _ _]
    have hpos : pos + (12 + (serialize c).length) + (encodeRecs cs).length =
        pos + (encodeRecs (c :: cs)).length := by
      simp only [encodeRecs, List.flatMap_cons, List.length_append, mkRecord_length]
      omega
    rw [hpos]
    rfl

theorem scanLog_encodeRecs (gen : Nat) (cmds : List Command)
    (hwf : ∀ c ∈ cmds, (serialize c).length < 2 ^ 64) :
    scanLog gen (encodeRecs cmds) =
      replayRecs gen cmds 0 { map := [], uncompacted := 0 } := by
  unfold scanLog
  have h := scanAux_encodeRecs gen [] cmds hwf 0 { map := [], uncompacted := 0 }
  rw [List.append_nil] at h
  exact h

theorem scanLog_truncated (gen : Nat) (cmds : List Command)
    (hwf : ∀ c ∈ cmds, (serialize c).length < 2 ^ 64) {p : List Nat} {t : Nat}
    (hlen64 : p.length < 2 ^ 64) (ht : t < 12 + p.length) :
    scanLog gen (encodeRecs cmds ++ (mkRecord p).take t) =
      replayRecs gen cmds 0 { map := [], uncompacted := 0 } := by
  unfold scanLog
  rw [scanAux_encodeRecs gen ((mkRecord p).take t) cmds hwf 0
    { map := [], uncompacted := 0 }]
  exact scanAux_truncated gen _ hlen64 ht _ _

theorem applyOps_absent {st : Store} (hg : GoodStore st) {k : String} {ops : List Op}
    (hops : ∀ o ∈ ops, WfOp o ∧ ∀ v, o ≠ .opSet k v)
    (habs : alookup st.map k = none) :
    alookup (applyOps st ops).map k = none ∧ GoodStore (applyOps st ops) := by
  induction ops generalizing st with
  | nil => exact ⟨habs, hg⟩
  | cons o rest ih =>
      have h1 := hops o (List.mem_cons_self ..)
      have h2 := applyOp_absent hg h1.1 h1.2 habs
      exact ih h2.2 (fun o' ho' => hops o' (List.mem_cons_of_mem _ ho')) h2.1

/-! ## Reopening after compaction -/

/-- The copy loop lays each live entry's record bytes down unchanged at its
recorded new location. -/
theorem compactNewMap_entry {st : Store} (hg : GoodStore st) {k : String}
    {p : CommandPos} (hlook : alookup st.map k = some p) {file payload : List Nat}
    (hfile : flookup st.files p.fileNum = some file)
    (hslice : slice file p.pos p.len = mkRecord payload) :
    ∃ np, alookup (compactNewMap st) k = some np ∧
      np.fileNum = st.curGen + 1 ∧ np.len = p.len ∧
      np.pos + np.len ≤ (compactBuf st).length ∧
      slice (compactBuf st) np.pos np.len = mkRecord payload := by
  obtain ⟨np, hnp, hfn, hlen, hbound, hsl⟩ :=
    copy_preserves (compactPhase1 st).files (st.curGen + 1) st.map [] []
      (copyPre hg) hg.mapNodup k p (mem_of_alookup_eq_some hlook)
  have hfile2 : flookup (compactPhase1 st).files p.fileNum = some file := by
    rw [compactPhase1_files hg]
    exact flookup_append_of_some hfile
  rw [hfile2, Option.getD_some, hslice] at hsl
  refine ⟨np, ?_, hfn, hlen, hbound, hsl⟩
  exact hnp

/-- Scanning the concatenated copies replays exactly the recorded new
locations. -/
theorem scan_copied (fs : List (Nat × List Nat)) (cg : Nat) :
    ∀ (entries : List (String × CommandPos)) (pos : Nat) (s : ScanSt),
    (∀ kp ∈ entries, ∃ file payload v,
        flookup fs kp.2.fileNum = some file ∧
        kp.2.pos + kp.2.len ≤ file.length ∧
        kp.2.len = 12 + payload.length ∧ payload.length < 2 ^ 64 ∧
        slice file kp.2.pos kp.2.len = mkRecord payload ∧
        deserialize payload = some (.set kp.1 v)) →
    (scanAux cg (copiedBytes fs entries).length (copiedBytes fs entries) pos s).map =
      newLocs cg entries pos s.map := by
  intro entries
  induction entries with
  | nil =>
    intro pos s _
    rfl
  | cons kp rest ih =>
    intro pos s hpre
    obtain ⟨k, p⟩ := kp
    obtain ⟨file, payload, v, hfile, hle, hplen, hlen64, hslice, hdes⟩ :=
      hpre (k, p) (List.mem_cons_self ..)
    have hfile' : flookup fs p.fileNum = some file := hfile
    have hplen' : p.len = 12 + payload.length := hplen
    have hslice' : slice file p.pos p.len = mkRecord payload := hslice
    have hdes' : deserialize payload = some (.set k v) := hdes
    have hcb : copiedBytes fs ((k, p) :: rest) = mkRecord payload ++ copiedBytes fs rest := by
      simp only [copiedBytes, hfile', Option.getD_some, hslice']
    rw [hcb, scanAux_cons cg hlen64 hdes' (copiedBytes fs rest) pos s]
    rw [ih _ _ (fun kp2 hm2 => hpre kp2 (List.mem_cons_of_mem _ hm2))]
    rw [← hplen']
    rfl

theorem scan_compactBuf {st : Store} (hg : GoodStore st) :
    (scanLog (st.curGen + 1) (compactBuf st)).map = compactNewMap st := by
  have hpre : ∀ kp ∈ st.map, ∃ file payload v,
      flookup (compactPhase1 st).files kp.2.fileNum = some file ∧
      kp.2.pos + kp.2.len ≤ file.length ∧
      kp.2.len = 12 + payload.length ∧ payload.length < 2 ^ 64 ∧
      slice file kp.2.pos kp.2.len = mkRecord payload ∧
      deserialize payload = some (.set kp.1 v) := by
    intro kp hm
    obtain ⟨file, hfile, hle, payload, v, hplen, hlen64, hslice, hdes⟩ :=
      hg.entries kp hm
    refine ⟨file, payload, v, ?_, hle, hplen, hlen64, hslice, hdes⟩
    rw [compactPhase1_files hg]
    exact flookup_append_of_some hfile
  unfold scanLog compactBuf compactNewMap
  exact scan_copied (compactPhase1 st).files (st.curGen + 1) st.map 0
    { map := [], uncompacted := 0 } hpre

/-- Reopening from the segments left by a successful compaction rebuilds an
index that reads back every key as before. -/
theorem openFromFiles_compaction {st : Store} (hg : GoodStore st) (k : String) :
    get (openFromFiles (compaction st).1.files) k = get st k := by
  rw [compaction_eq hg]
  show get (openFromFiles
    [(st.curGen + 1, compactBuf st), (st.curGen + 2, [])]) k = get st k
  cases hlook : alookup st.map k with
  | none =>
    rw [get_none_of_lookup_none hlook]
    apply get_none_of_lookup_none
    show alookup (scanLog (st.curGen + 1) (compactBuf st)).map k = none
    rw [scan_compactBuf hg]
    unfold compactNewMap
    rw [newLocs_lookup_notmem (st.curGen + 1) st.map 0 [] k ?notmem]
    case notmem =>
      intro hmem
      obtain ⟨q, hq⟩ := alookup_isSome_of_mem_keys hmem
      rw [hlook] at hq
      exact absurd hq (by simp)
    rfl
  | some p =>
    obtain ⟨file, hfile, hle, payload, v, hplen, hlen64, hslice, hdes⟩ :=
      hg.entries (k, p) (mem_of_alookup_eq_some hlook)
    obtain ⟨np, hnp, hfn, hlen, hbound, hsl⟩ :=
      compactNewMap_entry hg hlook hfile hslice
    have hlookR : alookup (openFromFiles
        [(st.curGen + 1, compactBuf st), (st.curGen + 2, [])]).map k = some np := by
      show alookup (scanLog (st.curGen + 1) (compactBuf st)).map k = some np
      rw [scan_compactBuf hg]
      exact hnp
    have hfR : flookup (openFromFiles
        [(st.curGen + 1, compactBuf st), (st.curGen + 2, [])]).files np.fileNum =
        some (compactBuf st) := by
      rw [hfn]
      show flookup [(st.curGen + 1, compactBuf st), (st.curGen + 2, [])]
        (st.curGen + 1) = some (compactBuf st)
      simp [flookup]
    rw [get_of_entry hlookR hfR hbound (hlen.trans hplen) hlen64 hsl hdes,
      get_of_entry hlook hfile hle hplen hlen64 hslice hdes]

/-! ## Corruption detection -/

/-- Replacing one file's bytes in the segment table (the on-disk state after
an external byte flip). -/
def fupdate (fs : List (Nat × List Nat)) (g : Nat) (f : List Nat) :
    List (Nat × List Nat) :=
  fs.map fun p => if p.1 = g then (g, f) else p

theorem flookup_fupdate_self {fs : List (Nat × List Nat)} {g : Nat} {b0 : List Nat}
    (h : flookup fs g = some b0) (f : List Nat) :
    flookup (fupdate fs g f) g = some f := by
  induction fs with
  | nil => simp [flookup] at h
  | cons gb rest ih =>
    obtain ⟨g0, d0⟩ := gb
    simp only [fupdate, List.map_cons]
    by_cases h0 : g0 = g
    · rw [if_pos h0]
      show flookup ((g, f) :: _) g = some f
      simp [flookup]
    · rw [if_neg h0]
      show flookup ((g0, d0) :: _) g = some f
      simp only [flookup, if_neg h0]
      simp only [flookup, if_neg h0] at h
      exact ih h

theorem slice_set_of_ge {l : List Nat} {n pos m : Nat} (h : pos + m ≤ n) (b : Nat) :
    slice (l.set n b) pos m = slice l pos m := by
  apply List.ext_getElem
  · simp [slice]
  · intro i h1 h2
    have hi : i < m := by
      simp only [slice, List.length_take, List.length_drop, List.length_set] at h1
      omega
    simp only [slice, List.getElem_take, List.getElem_drop]
    rw [List.getElem_set_ne (by omega : n ≠ pos + i)]

theorem slice_set_inside {l : List Nat} {pos m j : Nat} (hj : j < m)
    (hlen : pos + m ≤ l.length) (b : Nat) :
    slice (l.set (pos + j) b) pos m = (slice l pos m).set j b := by
  apply List.ext_getElem
  · simp [slice, List.length_set]
  · intro i h1 h2
    have hi : i < m := by
      simp only [slice, List.length_take, List.length_drop, List.length_set] at h1
      omega
    by_cases hij : i = j
    · subst hij
      simp only [slice, List.getElem_take, List.getElem_drop, List.getElem_set_self]
    · simp only [slice, List.getElem_take, List.getElem_drop]
      rw [List.getElem_set_ne (by omega : pos + j ≠ pos + i)]
      rw [List.getElem_set_ne (fun he => hij he.symm)]
      simp only [List.getElem_take, List.getElem_drop]

/-- Flipping one payload byte of a stored record makes `get` on its key
return the CRC-mismatch corruption error. -/
theorem get_flipped_byte {st : Store} (hg : GoodStore st) {k : String}
    {p : CommandPos} (hlook : alookup st.map k = some p) {j b : Nat}
    (hj : 12 + j < p.len) (hb : b < 256)
    (hne : b ≠ (((flookup st.files p.fileNum).getD []).getD (p.pos + 12 + j) 0)) :
    get { st with
            files := fupdate st.files p.fileNum
                       (((flookup st.files p.fileNum).getD []).set
                         (p.pos + 12 + j) b) } k =
      .error .corruption := by
  obtain ⟨file, hfile, hle, payload, v, hplen, hlen64, hslice, hdes⟩ :=
    hg.entries (k, p) (mem_of_alookup_eq_some hlook)
  have hfile' : flookup st.files p.fileNum = some file := hfile
  have hle' : p.pos + p.len ≤ file.length := hle
  have hplen' : p.len = 12 + payload.length := hplen
  have hslice' : slice file p.pos (12 + payload.length) = mkRecord payload := by
    rw [← hplen']
    exact hslice
  have hjp : j < payload.length := by omega
  rw [hfile', Option.getD_some] at hne ⊢
  have hpay0 : slice file (p.pos + 12) payload.length = payload := by
    rw [slice_sub hslice' (by omega : 12 + payload.length ≤ 12 + payload.length),
      mkRecord_drop12]
    exact List.take_length _
  have hbytes : ∀ y ∈ payload, y < 256 := by
    intro y hy
    rw [← hpay0] at hy
    have hy2 : y ∈ file :=
      (List.drop_subset _ _) ((List.take_subset _ _) hy)
    exact hg.bytesLt (p.fileNum, file) (flookup_mem hfile') y hy2
  have hidx : p.pos + 12 + j < file.length := by omega
  have hslicelen : j < (slice file (p.pos + 12) payload.length).length := by
    rw [slice_length (by omega : p.pos + 12 + payload.length ≤ file.length)]
    exact hjp
  have hpj : payload.getD j 0 = file.getD (p.pos + 12 + j) 0 := by
    conv_lhs => rw [← hpay0]
    rw [List.getD_eq_getElem _ 0 hslicelen, List.getD_eq_getElem file 0 hidx]
    simp only [slice, List.getElem_take, List.getElem_drop]
  have hne2 : b ≠ payload[j] := by
    rw [← List.getD_eq_getElem payload 0 hjp, hpj]
    exact hne
  have hcrcne : crc32 (payload.set j b) ≠ crc32 payload :=
    crc32_set_ne payload j b hjp hbytes hb hne2
  have h4 : slice (file.set (p.pos + 12 + j) b) p.pos 4 = u32le (crc32 payload) := by
    rw [slice_set_of_ge (by omega) b,
      slice_take (by omega : 4 ≤ 12 + payload.length), hslice', mkRecord_take4]
  have h8 : slice (file.set (p.pos + 12 + j) b) (p.pos + 4) 8 = u64le payload.length := by
    rw [slice_set_of_ge (by omega) b,
      slice_sub hslice' (by omega : 4 + 8 ≤ 12 + payload.length), mkRecord_drop4_take8]
  have hpay : slice (file.set (p.pos + 12 + j) b) (p.pos + 12) payload.length =
      payload.set j b := by
    rw [show p.pos + 12 + j = p.pos + 12 + j from rfl]
    rw [slice_set_inside hjp (by omega : p.pos + 12 + payload.length ≤ file.length) b,
      hpay0]
  have hlenset : (file.set (p.pos + 12 + j) b).length = file.length :=
    List.length_set ..
  have hrd : readData (file.set (p.pos + 12 + j) b) p.pos =
      .ok (crc32 payload, payload.set j b) := by
    unfold readData
    rw [hlenset, if_pos (by omega : p.pos + 12 ≤ file.length), h8,
      leNat_u64le hlen64,
      if_pos (by omega : p.pos + 12 + payload.length ≤ file.length), h4,
      leNat_u32le (crc32_lt payload), hpay]
  have hfl2 : flookup (fupdate st.files p.fileNum (file.set (p.pos + 12 + j) b))
      p.fileNum = some (file.set (p.pos + 12 + j) b) :=
    flookup_fupdate_self hfile' _
  show get { st with files := fupdate st.files p.fileNum (file.set (p.pos + 12 + j) b) } k = .error .corruption
  simp only [get, hlook, hfl2, hrd]
  rw [if_pos hcrcne]

/-! ## Concrete stores and remaining facts -/

/-- The state `open` produces on an empty data file. -/
def emptyStore : Store :=
  { files := [(0, [])], curGen := 0, map := [], uncompacted := 0, deleted := [] }

theorem goodStore_empty : GoodStore emptyStore := by
  refine ⟨fun kp hm => absurd hm (List.not_mem_nil _), rfl,
    fun kp hm => absurd hm (List.not_mem_nil _), ?_, ?_, ?_, ?_⟩
  · intro gb hm
    simp only [emptyStore, List.mem_cons, List.not_mem_nil, or_false] at hm
    rw [hm]
    decide
  · intro gb hm
    simp only [emptyStore, List.mem_cons, List.not_mem_nil, or_false] at hm
    rw [hm]
    intro b hb
    exact absurd hb (List.not_mem_nil _)
  · exact List.nodup_nil
  · exact List.pairwise_singleton _ _

/-- The store inside `compaction` after the stale segments are deleted,
before the merge loop, in closed form. -/
theorem compactAfterDelete_eq {st : Store} (hg : GoodStore st) :
    compactAfterDelete st =
      { files := [(st.curGen + 1, compactBuf st), (st.curGen + 2, [])]
        curGen := st.curGen + 2
        map := st.map
        uncompacted := st.uncompacted
        deleted := st.deleted ++ st.files.map Prod.fst } := by
  unfold compactAfterDelete
  rw [compactCopyRes_eq hg]
  simp only [files2_eq hg, filter_files2 hg, staleGens_files2 hg]
  rfl

/-- The copy loop only ever fails with an I/O error. -/
theorem copyEntries_err (fs : List (Nat × List Nat)) (cg : Nat) :
    ∀ (entries : List (String × CommandPos)) (newPos : Nat) (buf : List Nat)
      (nm : List (String × CommandPos)),
    (copyEntries fs cg entries newPos buf nm).2.2 = none ∨
      (copyEntries fs cg entries newPos buf nm).2.2 = some .io := by
  intro entries
  induction entries with
  | nil =>
    intro _ _ _
    left
    rfl
  | cons kp rest ih =>
    intro newPos buf nm
    obtain ⟨k, p⟩ := kp
    cases hf : flookup fs p.fileNum with
    | none =>
      right
      simp [copyEntries, hf]
    | some file =>
      by_cases hle : p.pos + p.len ≤ file.length
      · simp only [copyEntries, hf, if_pos hle]
        exact ih _ _ _
      · simp only [copyEntries, hf, if_neg hle]
        right
        trivial

/-- `compaction` never reports `KeyNotFound`. -/
theorem compaction_snd (st : Store) :
    (compaction st).2 = none ∨ (compaction st).2 = some .io := by
  have h := copyEntries_err (compactPhase1 st).files (st.curGen + 1) st.map 0 [] []
  unfold compaction
  cases hc : compactCopyRes st with
  | mk buf rest =>
    obtain ⟨nm, err⟩ := rest
    have h2 : err = none ∨ err = some .io := by
      have h3 : (compactCopyRes st).2.2 = none ∨ (compactCopyRes st).2.2 = some .io := h
      rw [hc] at h3
      exact h3
    cases err with
    | none =>
      left
      rfl
    | some e =>
      rcases h2 with h2 | h2
      · exact absurd h2 (by simp)
      · right
        simp only [Option.some_inj] at h2
        rw [h2]

/-- A present key is gone from the index right after `remove`. -/
theorem remove_lookup_none {st : Store} (hg : GoodStore st) {k : String}
    (hp : alookup st.map k ≠ none) : alookup (remove st k).1.map k = none := by
  have hnd : ((writeData st (.remove k)).1.map.map Prod.fst).Nodup := by
    rw [writeData_map]
    exact hg.mapNodup
  rw [remove_unfold, if_neg hp]
  by_cases hc : COMPACTION_THRESHOLD < (removeMid st k).uncompacted
  · rw [if_pos hc, compaction_lookup_none (goodStore_removeMid hg)]
    exact alookup_aerase_self _ _ hnd
  · rw [if_neg hc]
    exact alookup_aerase_self _ _ hnd

/-! ## The claims -/

/-- C1: after `set k v` on a reachable open store returns success, `get k`
returns `Some v`, and continues to do so across any further sequence of
operations none of which writes key `k`. -/
theorem c1_set_persists_until_touched {st : Store} (hg : GoodStore st)
    {k v : String} (hlen64 : (serialize (.set k v)).length < 2 ^ 64)
    {ops : List Op} (hops : ∀ o ∈ ops, WfOp o ∧ ¬ touches k o) :
    (set st k v).2 = none ∧
    get (set st k v).1 k = .ok (some v) ∧
    get (applyOps (set st k v).1 ops) k = .ok (some v) := by
  obtain ⟨hg1, herr, hget, _⟩ := set_spec hg hlen64
  have h2 := applyOps_get hg1 hops
  exact ⟨herr, hget, h2.1.trans hget⟩

/-- Witness for C1 at a concrete store and operation sequence. -/
theorem c1_witness :
    (set emptyStore "a" "1").2 = none ∧
    get (set emptyStore "a" "1").1 "a" = .ok (some "1") ∧
    get (applyOps (set emptyStore "a" "1").1 [.opCompact, .opRemove "b"]) "a" =
      .ok (some "1") :=
  c1_set_persists_until_touched goodStore_empty (by decide) (by decide)

/-- C2: after `remove k` on a reachable store holding `k` returns success,
`get k` returns `None`, and continues to do so across any further sequence of
operations none of which is a `set` of `k`. -/
theorem c2_remove_persists_until_set {st : Store} (hg : GoodStore st) {k : String}
    (hp : alookup st.map k ≠ none) {ops : List Op}
    (hops : ∀ o ∈ ops, WfOp o ∧ ∀ v, o ≠ .opSet k v) :
    (remove st k).2 = none ∧
    get (remove st k).1 k = .ok none ∧
    get (applyOps (remove st k).1 ops) k = .ok none := by
  obtain ⟨hg1, herr, hget, _⟩ := remove_spec_present hg hp
  have h2 := applyOps_absent hg1 hops (remove_lookup_none hg hp)
  exact ⟨herr, hget, get_none_of_lookup_none h2.1⟩

/-- Witness for C2 at a concrete store and operation sequence. -/
theorem c2_witness :
    (remove (set emptyStore "a" "1").1 "a").2 = none ∧
    get (remove (set emptyStore "a" "1").1 "a").1 "a" = .ok none ∧
    get (applyOps (remove (set emptyStore "a" "1").1 "a").1
      [.opCompact, .opSet "b" "2"]) "a" = .ok none :=
  c2_remove_persists_until_set ((set_spec goodStore_empty (by decide)).1)
    (by decide)
    (by
      intro o ho
      simp only [List.mem_cons, List.not_mem_nil, or_false] at ho
      rcases ho with rfl | rfl
      · exact ⟨trivial, fun v h => nomatch h⟩
      · refine ⟨by decide, fun v h => ?_⟩
        injection h with h1 h2
        exact absurd h1 (by decide))

/-- C3: every record written by `set` or `remove` is appended to the active
file as a 12-byte header followed by the payload: bytes 0..4 are the
little-endian CRC-32 of the payload alone, bytes 4..12 the little-endian
payload length `L`, bytes 12..12+L the payload, and the record is `12 + L`
bytes long. -/
theorem c3_record_layout (st : Store) (cmd : Command) {act : List Nat}
    (hact : flookup st.files st.curGen = some act)
    (hlen64 : (serialize cmd).length < 2 ^ 64) :
    (writeData st cmd).1.files =
      finsert st.files st.curGen (act ++ mkRecord (serialize cmd)) ∧
    (mkRecord (serialize cmd)).length = 12 + (serialize cmd).length ∧
    leNat (slice (mkRecord (serialize cmd)) 0 4) = crc32 (serialize cmd) ∧
    leNat (slice (mkRecord (serialize cmd)) 4 8) = (serialize cmd).length ∧
    slice (mkRecord (serialize cmd)) 12 (serialize cmd).length = serialize cmd := by
  refine ⟨?_, mkRecord_length _, ?_, ?_, ?_⟩
  · show finsert st.files st.curGen
      (((flookup st.files st.curGen).getD []) ++ mkRecord (serialize cmd)) = _
    rw [hact, Option.getD_some]
  · show leNat ((mkRecord (serialize cmd)).take 4) = _
    rw [mkRecord_take4, leNat_u32le (crc32_lt _)]
  · show leNat (((mkRecord (serialize cmd)).drop 4).take 8) = _
    rw [mkRecord_drop4_take8, leNat_u64le hlen64]
  · show ((mkRecord (serialize cmd)).drop 12).take (serialize cmd).length = _
    rw [mkRecord_drop12, List.take_length]

/-- Witness for C3 at a concrete command. -/
theorem c3_witness :
    (mkRecord (serialize (Command.set "a" "1"))).length =
      12 + (serialize (Command.set "a" "1")).length := by
  have hact : flookup emptyStore.files emptyStore.curGen = some [] := by decide
  exact (c3_record_layout emptyStore (Command.set "a" "1") hact (by decide)).2.1

/-- C4: flipping any single byte of a stored record's payload on disk makes a
subsequent `get` of that key return the `Corruption` error: the recomputed
CRC no longer matches the stored one. -/
theorem c4_payload_flip_corruption {st : Store} (hg : GoodStore st) {k : String}
    {p : CommandPos} (hlook : alookup st.map k = some p) (j b : Nat)
    (hj : 12 + j < p.len) (hb : b < 256)
    (hne : b ≠ (((flookup st.files p.fileNum).getD []).getD (p.pos + 12 + j) 0)) :
    get { st with files := fupdate st.files p.fileNum (((flookup st.files p.fileNum).getD []).set (p.pos + 12 + j) b) } k = .error .corruption :=
  get_flipped_byte hg hlook hj hb hne

/-- Witness for C4: flipping the first payload byte of a freshly written
record. -/
theorem c4_witness :
    get { (set emptyStore "a" "1").1 with files := fupdate (set emptyStore "a" "1").1.files 0 (((flookup (set emptyStore "a" "1").1.files 0).getD []).set 12 0) } "a" = .error .corruption := by
  have hlook : alookup (set emptyStore "a" "1").1.map "a" =
      some { fileNum := 0, pos := 0, len := 43 } := by decide
  exact c4_payload_flip_corruption ((set_spec goodStore_empty (by decide)).1)
    hlook 0 0 (by decide) (by decide) (by decide)

/-- C5: a log whose last record is truncated anywhere inside its 12-byte
header or payload still opens without error, and the rebuilt index is that of
the log's fully written records. -/
theorem c5_truncated_tail_open (cmds : List Command) (p : List Nat) (t : Nat)
    (hwf : ∀ c ∈ cmds, (serialize c).length < 2 ^ 64)
    (hlen64 : p.length < 2 ^ 64) (ht : t < 12 + p.length) :
    ∃ st, openWithHint none (encodeRecs cmds ++ (mkRecord p).take t) = .ok st ∧
      st.map = (scanLog 0 (encodeRecs cmds)).map := by
  refine ⟨_, rfl, ?_⟩
  show (scanLog 0 (encodeRecs cmds ++ (mkRecord p).take t)).map = _
  rw [scanLog_truncated 0 cmds hwf hlen64 ht, scanLog_encodeRecs 0 cmds hwf]

/-- Witness for C5: one full record followed by 5 bytes of a truncated one. -/
theorem c5_witness :
    ∃ st, openWithHint none (encodeRecs [Command.set "a" "1"] ++
        (mkRecord (serialize (Command.remove "a"))).take 5) = .ok st ∧
      st.map = (scanLog 0 (encodeRecs [Command.set "a" "1"])).map :=
  c5_truncated_tail_open [Command.set "a" "1"] (serialize (Command.remove "a")) 5
    (by decide) (by decide) (by decide)

/-- Counterexample to C6 as stated: right after the delete loop of
`compaction` (state `compactAfterDelete`), the not-yet-merged index still
points a live key at a generation that is already deleted. -/
theorem c6_counterexample :
    ∃ p, alookup (compactAfterDelete (set emptyStore "a" "1").1).map "a" = some p ∧
      p.fileNum ∈ (compactAfterDelete (set emptyStore "a" "1").1).deleted :=
  ⟨{ fileNum := 0, pos := 0, len := 43 }, by decide, by decide⟩

/-- C6 (amended): the copies are written and verify at their new locations
before the old files are removed — at the post-delete state every live key's
record is readable with a matching CRC from the surviving compaction file,
byte-identical to its source extent — and the final index references only
present files; but between the delete loop and the merge loop the index does
reference deleted files (see the counterexample). -/
theorem c6_write_before_delete {st : Store} (hg : GoodStore st) :
    (∀ k p, alookup st.map k = some p →
      ∃ np payload, alookup (compactNewMap st) k = some np ∧
        np.fileNum = st.curGen + 1 ∧
        flookup (compactAfterDelete st).files np.fileNum = some (compactBuf st) ∧
        readData (compactBuf st) np.pos = .ok (crc32 payload, payload) ∧
        slice ((flookup st.files p.fileNum).getD []) p.pos p.len = mkRecord payload) ∧
    (∀ kp ∈ (compaction st).1.map,
      (flookup (compaction st).1.files kp.2.fileNum).isSome) := by
  constructor
  · intro k p hlook
    obtain ⟨file, hfile, hle, payload, v, hplen, hlen64, hslice, hdes⟩ :=
      hg.entries (k, p) (mem_of_alookup_eq_some hlook)
    have hfile' : flookup st.files p.fileNum = some file := hfile
    have hplen' : p.len = 12 + payload.length := hplen
    have hslice' : slice file p.pos p.len = mkRecord payload := hslice
    obtain ⟨np, hnp, hfn, hlen, hbound, hsl⟩ :=
      compactNewMap_entry hg hlook hfile' hslice'
    have h2 : np.len = 12 + payload.length := hlen.trans hplen'
    refine ⟨np, payload, hnp, hfn, ?_, ?_, ?_⟩
    · rw [compactAfterDelete_eq hg, hfn]
      show flookup [(st.curGen + 1, compactBuf st), (st.curGen + 2, [])]
        (st.curGen + 1) = some (compactBuf st)
      simp [flookup]
    · apply readData_of_slice
      · omega
      · rw [← h2]
        exact hsl
      · exact hlen64
    · rw [hfile', Option.getD_some]
      exact hslice'
  · intro kp hm
    obtain ⟨file, hfile, _⟩ := (compaction_good hg).entries kp hm
    exact Option.isSome_iff_exists.mpr ⟨file, hfile⟩

/-- Witness for the amended C6 at a concrete store. -/
theorem c6_witness :
    (∀ k p, alookup emptyStore.map k = some p →
      ∃ np payload, alookup (compactNewMap emptyStore) k = some np ∧
        np.fileNum = emptyStore.curGen + 1 ∧
        flookup (compactAfterDelete emptyStore).files np.fileNum =
          some (compactBuf emptyStore) ∧
        readData (compactBuf emptyStore) np.pos = .ok (crc32 payload, payload) ∧
        slice ((flookup emptyStore.files p.fileNum).getD []) p.pos p.len =
          mkRecord payload) ∧
    (∀ kp ∈ (compaction emptyStore).1.map,
      (flookup (compaction emptyStore).1.files kp.2.fileNum).isSome) :=
  c6_write_before_delete goodStore_empty

/-- C7: `get` returns the same result for every key right after a
`compaction` as right before it, both in memory and after reopening from the
compacted files. -/
theorem c7_compaction_preserves_reads {st : Store} (hg : GoodStore st) :
    (compaction st).2 = none ∧
    (∀ k, get (compaction st).1 k = get st k) ∧
    (∀ k, get (openFromFiles (compaction st).1.files) k = get st k) := by
  refine ⟨?_, fun k => compaction_get hg k, fun k => openFromFiles_compaction hg k⟩
  rw [compaction_eq hg]

/-- Witness for C7 at a concrete store. -/
theorem c7_witness :
    (compaction emptyStore).2 = none ∧
    (∀ k, get (compaction emptyStore).1 k = get emptyStore k) ∧
    (∀ k, get (openFromFiles (compaction emptyStore).1.files) k =
      get emptyStore k) :=
  c7_compaction_preserves_reads goodStore_empty

/-- C8: `remove` reports `KeyNotFound` exactly when the key is absent from
the index, and in that case it returns the store unchanged — index, counter
and files — having appended nothing. -/
theorem c8_remove_absent (st : Store) (k : String) :
    ((remove st k).2 = some .keyNotFound ↔ alookup st.map k = none) ∧
    (alookup st.map k = none → remove st k = (st, some .keyNotFound)) := by
  constructor
  · constructor
    · intro h
      by_contra habs
      rw [remove_unfold, if_neg habs] at h
      by_cases hc : COMPACTION_THRESHOLD < (removeMid st k).uncompacted
      · rw [if_pos hc] at h
        rcases compaction_snd (removeMid st k) with h2 | h2 <;> rw [h2] at h <;>
          simp at h
      · rw [if_neg hc] at h
        simp at h
    · intro h
      rw [remove_absent h]
  · intro h
    rw [remove_absent h]

/-- Witness for C8 at a concrete store. -/
theorem c8_witness : remove emptyStore "a" = (emptyStore, some .keyNotFound) :=
  (c8_remove_absent emptyStore "a").2 (by decide)

/-- C9: during recovery replay a `Remove` record deletes the key's index
entry if present (charging the displaced entry's length to reclaimable
bytes), leaves other keys alone, and always charges its own record length,
present or not. -/
theorem c9_replay_remove (gen : Nat) (s : ScanSt) (k : String) (pos entryLen : Nat)
    (hnd : (s.map.map Prod.fst).Nodup) :
    alookup (replayStep gen s (.remove k) pos entryLen).map k = none ∧
    (∀ k', k' ≠ k →
      alookup (replayStep gen s (.remove k) pos entryLen).map k' =
        alookup s.map k') ∧
    (∀ old, alookup s.map k = some old →
      (replayStep gen s (.remove k) pos entryLen).uncompacted =
        s.uncompacted + old.len + entryLen) ∧
    (alookup s.map k = none →
      (replayStep gen s (.remove k) pos entryLen).uncompacted =
        s.uncompacted + entryLen) := by
  refine ⟨alookup_aerase_self _ _ hnd, fun k' hk' => alookup_aerase_ne _ hk', ?_, ?_⟩
  · intro old hold
    show s.uncompacted +
      (match alookup s.map k with | some o => o.len | none => 0) + entryLen = _
    rw [hold]
  · intro hnone
    show s.uncompacted +
      (match alookup s.map k with | some o => o.len | none => 0) + entryLen = _
    rw [hnone]
    rfl

/-- Witness for C9 at a concrete replay state. -/
theorem c9_witness :
    alookup (replayStep 0 { map := [("a", { fileNum := 0, pos := 0, len := 43 })], uncompacted := 7 } (.remove "a") 100 20).map "a" = none ∧
    (∀ k', k' ≠ "a" →
      alookup (replayStep 0 { map := [("a", { fileNum := 0, pos := 0, len := 43 })], uncompacted := 7 } (.remove "a") 100 20).map k' =
        alookup [("a", { fileNum := 0, pos := 0, len := 43 })] k') ∧
    (∀ old, alookup [("a", { fileNum := 0, pos := 0, len := 43 })] "a" = some old →
      (replayStep 0 { map := [("a", { fileNum := 0, pos := 0, len := 43 })], uncompacted := 7 } (.remove "a") 100 20).uncompacted = 7 + old.len + 20) ∧
    (alookup [("a", { fileNum := 0, pos := 0, len := 43 })] "a" = none →
      (replayStep 0 { map := [("a", { fileNum := 0, pos := 0, len := 43 })], uncompacted := 7 } (.remove "a") 100 20).uncompacted = 7 + 20) :=
  c9_replay_remove 0
    { map := [("a", { fileNum := 0, pos := 0, len := 43 })], uncompacted := 7 }
    "a" 100 20 (by decide)

/-- Counterexample to C10 as stated: a four-byte hint file announcing a
one-byte payload that is not there makes `open` fail with `UnexpectedEof`
instead of falling back to the data-file scan. -/
theorem c10_counterexample :
    openWithHint (some [1, 0, 0, 0]) [] = .error .eof := rfl

/-- C10 (amended): the hint sidecar never pre-populates the index — when it
parses cleanly, `open` behaves exactly as if there were no hint, scanning the
data file from scratch — and a hint that fails to parse aborts `open` with
the parse error rather than falling back to the scan. -/
theorem c10_hint_parsed_but_unused (hb data : List Nat) :
    (∀ m, parseHint hb = .ok m →
      openWithHint (some hb) data = openWithHint none data) ∧
    (∀ e, parseHint hb = .error e → openWithHint (some hb) data = .error e) := by
  constructor
  · intro m hm
    simp only [openWithHint, hm]
  · intro e he
    simp only [openWithHint, he]

/-- Witness for the amended C10: an empty hint parses as an empty map and
changes nothing. -/
theorem c10_witness :
    openWithHint (some []) [] = openWithHint none [] :=
  (c10_hint_parsed_but_unused [] []).1 [] rfl

end BitCask


